import Mathlib

/-!
Verification of the content-transformation core of the AI phishing detector
(backend/main.py): the heuristic risk scorer, the verdict thresholds, the
header inspector, the rule-based safe rewrite (Python re.sub calls) and the
word-level diff (difflib.SequenceMatcher).

Python strings are modelled as Lean `String`/`List Char`; Python integers as
`Int`; `None`-able arguments as `Option`.  All definitions are executable and
fuel-based where Python recursion is not structural.
-/

/-! ## Basic string helpers (Python str.lower, the in operator, str.split, str.strip) -/

/-- Python str.lower restricted to per-character lowering (ASCII-faithful). -/
def lowerStr (s : String) : String := String.mk (s.data.map Char.toLower)

/-- Bool test: the first list is a prefix of the second. -/
def charsPrefix : List Char → List Char → Bool
  | [], _ => true
  | _ :: _, [] => false
  | p :: ps, c :: cs => p == c && charsPrefix ps cs

/-- Bool test: the first list occurs contiguously inside the second. -/
def charsInfix (pat : List Char) : List Char → Bool
  | [] => charsPrefix pat []
  | c :: cs => charsPrefix pat (c :: cs) || charsInfix pat cs

/-- Python substring containment: `pat in t`. -/
def strContains (t pat : String) : Bool := charsInfix pat.data t.data

/-! ## simple_heuristic_score and score_to_verdict (backend/main.py lines 128-159) -/

def phishing_keywords : List String :=
  ["password", "verify", "account", "login", "click", "reset", "urgent"]

/-- The normalised text the scorer matches against: `(subject + " " + body).lower()`. -/
def scoreText (subject body : String) : String := lowerStr (subject ++ " " ++ body)

/-- Embedding of `simple_heuristic_score`: base 10, +15 per keyword hit (with a
reason each), +20 for a link, +15 for a financial term, clamped above at 100. -/
def simple_heuristic_score (subject body : String) : Int × List String :=
  let text := scoreText subject body
  let sr : Int × List String :=
    phishing_keywords.foldl
      (fun sr word =>
        if strContains text word then (sr.1 + 15, sr.2 ++ ["Contains keyword: " ++ word])
        else sr)
      (10, [])
  let sr : Int × List String :=
    if strContains text "http://" || strContains text "https://" then
      (sr.1 + 20, sr.2 ++ ["Contains a link"])
    else sr
  let sr : Int × List String :=
    if strContains text "bank" || strContains text "paypal" || strContains text "crypto" then
      (sr.1 + 15, sr.2 ++ ["Mentions financial service or money"])
    else sr
  (if sr.1 > 100 then 100 else sr.1, sr.2)

/-- Embedding of `score_to_verdict`. -/
def score_to_verdict (score : Int) : String :=
  if score ≤ 30 then "SAFE"
  else if score ≤ 69 then "SUSPICIOUS"
  else "PHISHING"

/-- Spec-side scorer, written from the spec text: 10, plus 15 for each keyword of
the fixed set present in the normalised text (reason per keyword, in keyword
order), plus 20 once for a link, plus 15 once for a financial term, score
clamped at 100, reasons in keyword/link/financial order. -/
def spec_heuristic_score (subject body : String) : Int × List String :=
  let text := scoreText subject body
  let kws := phishing_keywords.filter (fun w => strContains text w)
  let linkHit := strContains text "http://" || strContains text "https://"
  let finHit := strContains text "bank" || strContains text "paypal" || strContains text "crypto"
  (min 100 (10 + 15 * (kws.length : Int) + (if linkHit then 20 else 0) +
      (if finHit then 15 else 0)),
   kws.map (fun w => "Contains keyword: " ++ w) ++
     (if linkHit then ["Contains a link"] else []) ++
     (if finHit then ["Mentions financial service or money"] else []))

/-- The keyword loop of the scorer, in closed form: it adds 15 per matched
keyword and appends the matched keywords' reasons in order. -/
theorem keyword_foldl (text : String) (ws : List String) :
    ∀ (s0 : Int) (r0 : List String),
      ws.foldl
        (fun sr word =>
          if strContains text word then (sr.1 + 15, sr.2 ++ ["Contains keyword: " ++ word])
          else sr)
        (s0, r0)
      = (s0 + 15 * ((ws.filter (fun w => strContains text w)).length : Int),
         r0 ++ (ws.filter (fun w => strContains text w)).map
           (fun w => "Contains keyword: " ++ w)) := by
  induction ws with
  | nil => intro s0 r0; simp
  | cons w ws ih =>
      intro s0 r0
      by_cases h : strContains text w = true
      · simp only [List.foldl_cons, List.filter_cons, h, if_pos, ih, Prod.mk.injEq,
          List.length_cons, List.map_cons]
        constructor
        · push_cast; ring
        · simp
      · simp only [List.foldl_cons, List.filter_cons, h, ih]
        simp [h]

theorem heuristic_score_eq_spec (subject body : String) :
    simple_heuristic_score subject body = spec_heuristic_score subject body := by
  simp only [simple_heuristic_score, spec_heuristic_score, keyword_foldl]
  split_ifs with h1 h2 h3 <;>
    simp only [Prod.mk.injEq] <;>
    refine ⟨by omega, by simp⟩

/-- Claim C3: for every subject/body pair the scorer's result equals the
spec-side formula: 10 plus 15 per keyword of the ordered keyword set occurring
in the lowercased `subject ++ " " ++ body`, plus 20 once for `http://` or
`https://`, plus 15 once for a financial term, clamped at 100, and the reasons
are exactly the keyword reasons in keyword order, then the link reason, then
the financial reason. -/
theorem c3_score_matches_spec (subject body : String) :
    simple_heuristic_score subject body = spec_heuristic_score subject body :=
  heuristic_score_eq_spec subject body

/-- Rule trigger table: indices 0-6 are the keyword rules in order, 7 the link
rule, 8 the financial rule; each is the exact condition tested by the scorer. -/
def ruleHit (subject body : String) (i : Nat) : Bool :=
  let text := scoreText subject body
  if i = 0 then strContains text "password"
  else if i = 1 then strContains text "verify"
  else if i = 2 then strContains text "account"
  else if i = 3 then strContains text "login"
  else if i = 4 then strContains text "click"
  else if i = 5 then strContains text "reset"
  else if i = 6 then strContains text "urgent"
  else if i = 7 then strContains text "http://" || strContains text "https://"
  else if i = 8 then
    strContains text "bank" || strContains text "paypal" || strContains text "crypto"
  else false

/-- The set of rules an input triggers, as the list of triggered rule indices. -/
def triggeredRules (subject body : String) : List Nat :=
  (List.range 9).filter (ruleHit subject body)

/-- The score in terms of the rule-trigger table. -/
theorem score_ruleHit_form (subject body : String) :
    (simple_heuristic_score subject body).1
      = min 100 (10 +
          15 * ((phishing_keywords.filter
            (fun w => strContains (scoreText subject body) w)).length : Int) +
          (if ruleHit subject body 7 then 20 else 0) +
          (if ruleHit subject body 8 then 15 else 0)) := by
  rw [heuristic_score_eq_spec]
  simp [spec_heuristic_score, ruleHit]

/-- Filtering with a pointwise-weaker predicate keeps at most as many elements. -/
theorem filter_length_mono {α : Type} (p q : α → Bool) :
    ∀ l : List α, (∀ a ∈ l, p a = true → q a = true) →
      (l.filter p).length ≤ (l.filter q).length := by
  intro l
  induction l with
  | nil => simp
  | cons x xs ih =>
      intro h
      have hxs := ih (fun a ha => h a (List.mem_cons_of_mem x ha))
      by_cases hx : p x = true
      · have hq : q x = true := h x (List.mem_cons_self x xs) hx
        simp [List.filter_cons, hx, hq]
        omega
      · simp only [List.filter_cons, hx, if_neg]
        simp only [Bool.false_eq_true, if_false]
        cases hqx : q x <;> simp [hqx] <;> omega

theorem mem_triggeredRules (subject body : String) (r : Nat) :
    r ∈ triggeredRules subject body ↔ r < 9 ∧ ruleHit subject body r = true := by
  simp [triggeredRules, List.mem_filter, List.mem_range]

/-- Claim C2: the score always lies in [10,100], and it is monotone in the set
of triggered rules: when a second input triggers a superset of the rules
triggered by a first input, its score is at least the first input's score. -/
theorem c2_score_range_and_monotone (s1 b1 s2 b2 : String)
    (h : ∀ r ∈ triggeredRules s1 b1, r ∈ triggeredRules s2 b2) :
    ((10 ≤ (simple_heuristic_score s1 b1).1 ∧ (simple_heuristic_score s1 b1).1 ≤ 100) ∧
      (simple_heuristic_score s1 b1).1 ≤ (simple_heuristic_score s2 b2).1) := by
  have hmem : ∀ i, i < 9 → ruleHit s1 b1 i = true → ruleHit s2 b2 i = true := by
    intro i hi hr
    exact ((mem_triggeredRules s2 b2 i).1
      (h i ((mem_triggeredRules s1 b1 i).2 ⟨hi, hr⟩))).2
  have hkw : ((phishing_keywords.filter
        (fun w => strContains (scoreText s1 b1) w)).length)
      ≤ ((phishing_keywords.filter
        (fun w => strContains (scoreText s2 b2) w)).length) := by
    apply filter_length_mono
    intro w hw
    simp only [phishing_keywords, List.mem_cons, List.not_mem_nil, or_false] at hw
    rcases hw with rfl | rfl | rfl | rfl | rfl | rfl | rfl
    · exact fun hh => by
        have := hmem 0 (by omega) (by simpa [ruleHit] using hh); simpa [ruleHit] using this
    · exact fun hh => by
        have := hmem 1 (by omega) (by simpa [ruleHit] using hh); simpa [ruleHit] using this
    · exact fun hh => by
        have := hmem 2 (by omega) (by simpa [ruleHit] using hh); simpa [ruleHit] using this
    · exact fun hh => by
        have := hmem 3 (by omega) (by simpa [ruleHit] using hh); simpa [ruleHit] using this
    · exact fun hh => by
        have := hmem 4 (by omega) (by simpa [ruleHit] using hh); simpa [ruleHit] using this
    · exact fun hh => by
        have := hmem 5 (by omega) (by simpa [ruleHit] using hh); simpa [ruleHit] using this
    · exact fun hh => by
        have := hmem 6 (by omega) (by simpa [ruleHit] using hh); simpa [ruleHit] using this
  have h7 : (if ruleHit s1 b1 7 then (20 : Int) else 0)
      ≤ (if ruleHit s2 b2 7 then (20 : Int) else 0) := by
    by_cases hh : ruleHit s1 b1 7 = true
    · simp [hh, hmem 7 (by omega) hh]
    · rw [if_neg hh]
      split <;> omega
  have h8 : (if ruleHit s1 b1 8 then (15 : Int) else 0)
      ≤ (if ruleHit s2 b2 8 then (15 : Int) else 0) := by
    by_cases hh : ruleHit s1 b1 8 = true
    · simp [hh, hmem 8 (by omega) hh]
    · rw [if_neg hh]
      split <;> omega
  have p7 : (0 : Int) ≤ (if ruleHit s1 b1 7 then (20 : Int) else 0) ∧
      (if ruleHit s1 b1 7 then (20 : Int) else 0) ≤ 20 := by split <;> omega
  have p8 : (0 : Int) ≤ (if ruleHit s1 b1 8 then (15 : Int) else 0) ∧
      (if ruleHit s1 b1 8 then (15 : Int) else 0) ≤ 15 := by split <;> omega
  rw [score_ruleHit_form, score_ruleHit_form]
  omega

/-- Witness for C2 at concrete inputs: the empty email triggers no rule, so its
score is bounded and at most the score of a body that triggers more rules. -/
theorem c2_score_range_and_monotone_witness :
    ((10 ≤ (simple_heuristic_score "" "").1 ∧ (simple_heuristic_score "" "").1 ≤ 100) ∧
      (simple_heuristic_score "" "").1 ≤ (simple_heuristic_score "urgent" "").1) :=
  c2_score_range_and_monotone "" "" "urgent" "" (by decide)

/-- Claim C1: on [0,100] the verdict is SAFE iff score ≤ 30, SUSPICIOUS iff
31 ≤ score ≤ 69, PHISHING iff score ≥ 70. -/
theorem c1_verdict_thresholds (s : Int) (h0 : 0 ≤ s) (h1 : s ≤ 100) :
    (score_to_verdict s = "SAFE" ↔ s ≤ 30) ∧
    (score_to_verdict s = "SUSPICIOUS" ↔ 31 ≤ s ∧ s ≤ 69) ∧
    (score_to_verdict s = "PHISHING" ↔ 70 ≤ s) := by
  unfold score_to_verdict
  split_ifs with ha hb
  · exact ⟨⟨fun _ => ha, fun _ => rfl⟩,
      ⟨fun hh => absurd hh (by decide), fun hh => by omega⟩,
      ⟨fun hh => absurd hh (by decide), fun hh => by omega⟩⟩
  · exact ⟨⟨fun hh => absurd hh (by decide), fun hh => by omega⟩,
      ⟨fun _ => by omega, fun _ => rfl⟩,
      ⟨fun hh => absurd hh (by decide), fun hh => by omega⟩⟩
  · exact ⟨⟨fun hh => absurd hh (by decide), fun hh => by omega⟩,
      ⟨fun hh => absurd hh (by decide), fun hh => by omega⟩,
      ⟨fun _ => by omega, fun _ => rfl⟩⟩

/-- Witness for C1 at the concrete score 0. -/
theorem c1_verdict_thresholds_witness : score_to_verdict 0 = "SAFE" :=
  (c1_verdict_thresholds 0 (by decide) (by decide)).1.mpr (by decide)

/-! ## fake_header_analysis (backend/main.py lines 162-196) -/

structure HeaderAnalysis where
  spf_pass : Option Bool
  dkim_pass : Option Bool
  dmarc_pass : Option Bool
  from_domain : Option String
  return_path_domain : Option String
  reply_to_domain : Option String
  suspicious_flags : List String
deriving Repr, DecidableEq

/-- Embedding of `fake_header_analysis`; `raw_headers` is falsy in Python when
it is None or the empty string. -/
def fake_header_analysis (raw_headers : Option String) : HeaderAnalysis :=
  if raw_headers = none ∨ raw_headers = some "" then
    { spf_pass := none, dkim_pass := none, dmarc_pass := none,
      from_domain := none, return_path_domain := none, reply_to_domain := none,
      suspicious_flags := ["No headers provided"] }
  else
    let lower := lowerStr (raw_headers.getD "")
    { spf_pass := some (strContains lower "spf=pass"),
      dkim_pass := some (strContains lower "dkim=pass"),
      dmarc_pass := some (strContains lower "dmarc=pass"),
      from_domain := none, return_path_domain := none, reply_to_domain := none,
      suspicious_flags :=
        (if strContains lower "spf=fail" then ["SPF fail found in Authentication-Results"]
         else []) ++
        (if strContains lower "dkim=fail" then ["DKIM fail found in Authentication-Results"]
         else []) ++
        (if strContains lower "dmarc=fail" then ["DMARC fail found in Authentication-Results"]
         else []) }

/-- Claim C7: with absent or empty raw headers, all three authentication fields
are unknown and the flags list is exactly ["No headers provided"]. -/
theorem c7_no_headers (raw_headers : Option String)
    (h : raw_headers = none ∨ raw_headers = some "") :
    (fake_header_analysis raw_headers).spf_pass = none ∧
    (fake_header_analysis raw_headers).dkim_pass = none ∧
    (fake_header_analysis raw_headers).dmarc_pass = none ∧
    (fake_header_analysis raw_headers).suspicious_flags = ["No headers provided"] := by
  unfold fake_header_analysis
  rw [if_pos h]
  exact ⟨rfl, rfl, rfl, rfl⟩

/-- Witness for C7 at the concrete input none. -/
theorem c7_no_headers_witness :
    (fake_header_analysis none).spf_pass = none ∧
    (fake_header_analysis none).dkim_pass = none ∧
    (fake_header_analysis none).dmarc_pass = none ∧
    (fake_header_analysis none).suspicious_flags = ["No headers provided"] :=
  c7_no_headers none (Or.inl rfl)

/-- Claim C8: on "SPF=PASS; DKIM=fail" the inspector returns spf true, dkim
false, dmarc false and exactly the DKIM-fail flag; and on any non-empty blob
each pass field is exactly the `mech=pass` substring test on the lowercased
blob, and the flags are the `mech=fail` substring tests' fixed texts in
SPF/DKIM/DMARC order. -/
theorem c8_header_substring_checks :
    (fake_header_analysis (some "SPF=PASS; DKIM=fail")
      = { spf_pass := some true, dkim_pass := some false, dmarc_pass := some false,
          from_domain := none, return_path_domain := none, reply_to_domain := none,
          suspicious_flags := ["DKIM fail found in Authentication-Results"] }) ∧
    ∀ s : String, s ≠ "" →
      (fake_header_analysis (some s)).spf_pass = some (strContains (lowerStr s) "spf=pass") ∧
      (fake_header_analysis (some s)).dkim_pass = some (strContains (lowerStr s) "dkim=pass") ∧
      (fake_header_analysis (some s)).dmarc_pass = some (strContains (lowerStr s) "dmarc=pass") ∧
      (fake_header_analysis (some s)).suspicious_flags =
        (if strContains (lowerStr s) "spf=fail"
         then ["SPF fail found in Authentication-Results"] else []) ++
        (if strContains (lowerStr s) "dkim=fail"
         then ["DKIM fail found in Authentication-Results"] else []) ++
        (if strContains (lowerStr s) "dmarc=fail"
         then ["DMARC fail found in Authentication-Results"] else []) := by
  constructor
  · decide
  · intro s hs
    unfold fake_header_analysis
    rw [if_neg (by simp [hs])]
    exact ⟨rfl, rfl, rfl, rfl⟩

/-- Witness for the universally quantified part of C8 at a concrete blob. -/
theorem c8_header_substring_checks_witness :
    (fake_header_analysis (some "dmarc=fail")).dmarc_pass = some false ∧
    (fake_header_analysis (some "dmarc=fail")).suspicious_flags
      = ["DMARC fail found in Authentication-Results"] := by
  obtain ⟨h1, h2, h3, h4⟩ := c8_header_substring_checks.2 "dmarc=fail" (by decide)
  constructor
  · rw [h3]; decide
  · rw [h4]; decide

/-! ## A small backtracking regex engine for the re.sub calls of rewrite_to_safe

The five patterns of `rewrite_to_safe` use only literals, `.*`, `\S+` and an
alternation of literals, so a regex abstract syntax with exactly these forms
suffices.  `matchRE` reproduces Python's leftmost match with greedy
backtracking: a star/plus tries the longest permitted consumption first and
backs off; an alternation tries its branches in written order. -/

/-- Case-insensitive prefix test: the (already lowercase) pattern against the
text lowered per character, as Python re.IGNORECASE does for these patterns. -/
def ciCharsPrefix : List Char → List Char → Bool
  | [], _ => true
  | _ :: _, [] => false
  | p :: ps, c :: cs => p == c.toLower && ciCharsPrefix ps cs

inductive RE where
  | lit (s : List Char) (ci : Bool)
  | star (cls : Char → Bool)
  | plus (cls : Char → Bool)
  | alt (ss : List (List Char)) (ci : Bool)

/-- Literal-prefix test, optionally case-insensitive. -/
def preTest (ci : Bool) (s cs : List Char) : Bool :=
  if ci then ciCharsPrefix s cs else charsPrefix s cs

/-- Match a pattern at the start of the text; on success return the remaining
suffix after the (greedily chosen) match, as Python's regex engine would. -/
def matchRE : List RE → List Char → Option (List Char)
  | [], cs => some cs
  | .lit s ci :: rest, cs =>
      if preTest ci s cs then matchRE rest (cs.drop s.length) else none
  | .star cls :: rest, cs =>
      ((List.range ((cs.takeWhile cls).length + 1)).reverse).findSome?
        (fun n => matchRE rest (cs.drop n))
  | .plus cls :: rest, cs =>
      ((List.range (cs.takeWhile cls).length).reverse).findSome?
        (fun k => matchRE rest (cs.drop (k + 1)))
  | .alt ss ci :: rest, cs =>
      ss.findSome?
        (fun s => if preTest ci s cs then matchRE rest (cs.drop s.length) else none)

/-- Leftmost match of p inside cs: on success returns the text before the
match and the text after it. -/
def firstMatch (p : List RE) : List Char → Option (List Char × List Char)
  | [] => (matchRE p []).map (fun r => (([] : List Char), r))
  | c :: cs =>
      match matchRE p (c :: cs) with
      | some r => some ([], r)
      | none => (firstMatch p cs).map (fun pr => (c :: pr.1, pr.2))

/-- Fuelled scanner for Python re.sub: repeatedly replace the leftmost match of
p by marker and continue after it.  All patterns used here consume at least one
character per match, so fuel `cs.length + 1` always suffices. -/
def subAuxF (p : List RE) (marker : List Char) : Nat → List Char → List Char
  | 0, cs => cs
  | fuel + 1, cs =>
      match firstMatch p cs with
      | none => cs
      | some (pre, r) => pre ++ marker ++ subAuxF p marker fuel r

/-- Python `re.sub(p, marker, s)` for the restricted pattern language. -/
def reSub (p : List RE) (marker : String) (s : String) : String :=
  String.mk (subAuxF p marker.data (s.data.length + 1) s.data)

/-! ## rewrite_to_safe (backend/main.py lines 203-251) -/

/-- Char class of `.` without DOTALL: any character except a newline. -/
def nonNl : Char → Bool := fun c => c != '\n'

/-- Char class of `\S`: any non-whitespace character. -/
def nonWsCls : Char → Bool := fun c => !c.isWhitespace

/-- Pattern `(?i)click.*link.*(login|log in|verify|reset)`. -/
def removePat1 : List RE :=
  [.lit "click".data true, .star nonNl, .lit "link".data true, .star nonNl,
   .alt ["login".data, "log in".data, "verify".data, "reset".data] true]

/-- Pattern `(?i)enter.*password`. -/
def removePat2 : List RE :=
  [.lit "enter".data true, .star nonNl, .lit "password".data true]

/-- Pattern `(?i)provide.*credentials`. -/
def removePat3 : List RE :=
  [.lit "provide".data true, .star nonNl, .lit "credentials".data true]

/-- Pattern `https?://\S+` (case-sensitive). -/
def urlPat : List RE :=
  [.alt ["https://".data, "http://".data] false, .plus nonWsCls]

def patterns_to_remove : List (List RE) := [removePat1, removePat2, removePat3]

def subject_replacements : List (String × String) :=
  [("suspended", "updated"), ("suspension", "update"), ("urgent", "important"),
   ("immediately", ""), ("immediate", "")]

def body_replacements : List (String × String) :=
  [("will be closed", "may require your attention"),
   ("will be disabled", "may be temporarily limited"),
   ("within 24 hours", "in the near future"),
   ("immediately", "soon"),
   ("urgent", "important")]

/-- A case-insensitive literal replacement, `re.sub(bad, good, s, flags=re.IGNORECASE)`. -/
def reSubLit (bad good : String) (s : String) : String :=
  reSub [.lit bad.data true] good s

/-- The subject pass of rewrite_to_safe. -/
def safeSubjectOf (subject : String) : String :=
  subject_replacements.foldl (fun s p => reSubLit p.1 p.2 s) subject

/-- Body stage 1: the three sensitive-instruction removals, in order. -/
def removeSensitive (body : String) : String :=
  patterns_to_remove.foldl (fun b pat => reSub pat "[removed sensitive instructions]" b) body

/-- Body stage 2: URL removal. -/
def removeUrls (body : String) : String := reSub urlPat "[link removed]" body

/-- Body stage 3: the threatening-language softening table, in order. -/
def softenBody (body : String) : String :=
  body_replacements.foldl (fun b p => reSubLit p.1 p.2 b) body

/-- Python str.strip(): drop leading and trailing whitespace. -/
def pyStrip (s : String) : String :=
  String.mk (((s.data.dropWhile Char.isWhitespace).reverse.dropWhile Char.isWhitespace).reverse)

/-- Body stage 4: append the closing block when "thank you" is absent. -/
def addClosing (b : String) : String :=
  if strContains (lowerStr b) "thank you" then b
  else pyStrip b ++ "\n\nThank you,\nCustomer Support Team"

/-- Embedding of `rewrite_to_safe`. -/
def rewrite_to_safe (subject body : String) : String × String :=
  (safeSubjectOf subject, addClosing (softenBody (removeUrls (removeSensitive body))))

/-- Claim C9: the closing step appends the fixed block to the stripped body
when "thank you" is absent (case-insensitively) from the body produced by the
earlier stages, and otherwise leaves that body unchanged. -/
theorem c9_closing_append (subject body : String) :
    (strContains (lowerStr (softenBody (removeUrls (removeSensitive body)))) "thank you"
        = false →
      (rewrite_to_safe subject body).2
        = pyStrip (softenBody (removeUrls (removeSensitive body)))
            ++ "\n\nThank you,\nCustomer Support Team") ∧
    (strContains (lowerStr (softenBody (removeUrls (removeSensitive body)))) "thank you"
        = true →
      (rewrite_to_safe subject body).2 = softenBody (removeUrls (removeSensitive body))) := by
  simp only [rewrite_to_safe, addClosing]
  constructor
  · intro h; rw [if_neg (by simp [h])]
  · intro h; rw [if_pos h]

/-- Witness for C9 at a concrete body lacking a closing. -/
theorem c9_closing_append_witness :
    (rewrite_to_safe "" "hello").2
      = pyStrip (softenBody (removeUrls (removeSensitive "hello")))
          ++ "\n\nThank you,\nCustomer Support Team" :=
  (c9_closing_append "" "hello").1 (by decide)

/-! ## Marker lemmas for the re.sub scanner -/

theorem firstMatch_none (p : List RE) :
    ∀ cs : List Char, firstMatch p cs = none → ∀ n, matchRE p (cs.drop n) = none := by
  intro cs
  induction cs with
  | nil =>
      intro h n
      cases hm : matchRE p [] with
      | some r => simp [firstMatch, hm] at h
      | none => simpa using hm
  | cons c cs ih =>
      intro h n
      simp only [firstMatch] at h
      cases hm : matchRE p (c :: cs) with
      | some r => rw [hm] at h; exact absurd h (by simp)
      | none =>
          rw [hm] at h
          cases hfm : firstMatch p cs with
          | some pr => rw [hfm] at h; exact absurd h (by simp)
          | none =>
              cases n with
              | zero => simpa using hm
              | succ n => exact ih hfm n

theorem subAuxF_unchanged (p : List RE) (marker : List Char) (fuel : Nat) (cs : List Char)
    (h : firstMatch p cs = none) : subAuxF p marker fuel cs = cs := by
  cases fuel with
  | zero => rfl
  | succ fuel => simp [subAuxF, h]

theorem charsPrefix_iff (p : List Char) :
    ∀ l : List Char, charsPrefix p l = true ↔ ∃ t, l = p ++ t := by
  induction p with
  | nil => intro l; simp [charsPrefix]
  | cons x xs ih =>
      intro l
      cases l with
      | nil => simp [charsPrefix]
      | cons c cs =>
          simp only [charsPrefix, Bool.and_eq_true, beq_iff_eq, ih, List.cons_append,
            List.cons.injEq]
          constructor
          · rintro ⟨rfl, t, rfl⟩; exact ⟨t, rfl, rfl⟩
          · rintro ⟨t, rfl, rfl⟩; exact ⟨rfl, t, rfl⟩

theorem charsInfix_iff (p : List Char) :
    ∀ l : List Char, charsInfix p l = true ↔ ∃ x y, l = x ++ p ++ y := by
  intro l
  induction l with
  | nil =>
      simp only [charsInfix, charsPrefix_iff]
      constructor
      · rintro ⟨t, ht⟩
        exact ⟨[], t, by simpa using ht⟩
      · rintro ⟨x, y, hxy⟩
        rcases List.append_eq_nil.mp hxy.symm with ⟨hxp, hy⟩
        rcases List.append_eq_nil.mp hxp with ⟨hx, hp⟩
        exact ⟨[], by simp [hp]⟩
  | cons c cs ih =>
      simp only [charsInfix, Bool.or_eq_true, charsPrefix_iff, ih]
      constructor
      · rintro (⟨t, ht⟩ | ⟨x, y, hxy⟩)
        · exact ⟨[], t, by simpa using ht⟩
        · exact ⟨c :: x, y, by simp [hxy]⟩
      · rintro ⟨x, y, hxy⟩
        cases x with
        | nil => exact Or.inl ⟨y, by simpa using hxy⟩
        | cons d ds =>
            right
            simp only [List.cons_append, List.cons.injEq] at hxy
            exact ⟨ds, y, hxy.2⟩

theorem subAuxF_fired (p : List RE) (marker : List Char) (pr : List Char × List Char)
    (fuel : Nat) (cs : List Char) (h : firstMatch p cs = some pr) (hf : fuel ≠ 0) :
    charsInfix marker (subAuxF p marker fuel cs) = true := by
  cases fuel with
  | zero => exact absurd rfl hf
  | succ fuel =>
      simp only [subAuxF, h]
      rw [charsInfix_iff]
      exact ⟨pr.1, subAuxF p marker fuel pr.2, by simp⟩

theorem subAuxF_keeps_marker (p : List RE) (marker : List Char) (fuel : Nat) (cs : List Char)
    (hm : charsInfix marker cs = true) (hf : fuel ≠ 0) :
    charsInfix marker (subAuxF p marker fuel cs) = true := by
  cases h : firstMatch p cs with
  | none => rw [subAuxF_unchanged p marker fuel cs h]; exact hm
  | some pr => exact subAuxF_fired p marker pr fuel cs h hf

theorem subAuxF_marker_of_match (p : List RE) (marker : List Char) (fuel : Nat)
    (cs : List Char) (hf : fuel ≠ 0) (h : ∃ n, (matchRE p (cs.drop n)).isSome = true) :
    charsInfix marker (subAuxF p marker fuel cs) = true := by
  cases hfm : firstMatch p cs with
  | none =>
      obtain ⟨n, hn⟩ := h
      rw [firstMatch_none p cs hfm n] at hn
      exact absurd hn (by simp)
  | some pr => exact subAuxF_fired p marker pr fuel cs hfm hf

/-! ## Constructing matches for the removal patterns -/

theorem ciCharsPrefix_append (xs : List Char) :
    ∀ (p rest : List Char), xs.map Char.toLower = p →
      ciCharsPrefix p (xs ++ rest) = true := by
  induction xs with
  | nil => rintro p rest rfl; rfl
  | cons c cs ih =>
      rintro p rest rfl
      show (c.toLower == c.toLower && ciCharsPrefix (cs.map Char.toLower) (cs ++ rest)) = true
      rw [ih (cs.map Char.toLower) rest rfl]
      simp

theorem findSome_isSome_of_mem {α β : Type} (f : α → Option β) :
    ∀ (l : List α) (x : α), x ∈ l → (f x).isSome = true →
      (l.findSome? f).isSome = true := by
  intro l
  induction l with
  | nil => intro x hx; exact absurd hx (List.not_mem_nil x)
  | cons a l ih =>
      intro x hx h
      rw [List.findSome?_cons]
      cases ha : f a with
      | some b => simp
      | none =>
          rcases List.mem_cons.mp hx with rfl | hx2
          · rw [ha] at h; exact absurd h (by simp)
          · exact ih x hx2 h

theorem takeWhile_all_append (cls : Char → Bool) :
    ∀ (f t : List Char), f.all cls = true →
      f.length ≤ ((f ++ t).takeWhile cls).length := by
  intro f
  induction f with
  | nil => simp
  | cons c cs ih =>
      intro t hf
      rw [List.all_cons, Bool.and_eq_true] at hf
      simp only [List.cons_append, List.takeWhile_cons, hf.1, List.length_cons]
      have := ih t hf.2
      simp only [if_true, List.length_cons]
      omega

theorem length_map_toLower_eq {xs p : List Char} (h : xs.map Char.toLower = p) :
    p.length = xs.length := by
  rw [← h, List.length_map]

theorem matchRE_lit_ci_succeeds (s : List Char) (rest : List RE) (xs tail : List Char)
    (hx : xs.map Char.toLower = s) (hrest : (matchRE rest tail).isSome = true) :
    (matchRE (.lit s true :: rest) (xs ++ tail)).isSome = true := by
  simp only [matchRE, preTest, if_true]
  rw [if_pos (ciCharsPrefix_append xs s tail hx), length_map_toLower_eq hx, List.drop_left]
  exact hrest

theorem matchRE_star_succeeds (cls : Char → Bool) (rest : List RE) (f tail : List Char)
    (hf : f.all cls = true) (h : (matchRE rest tail).isSome = true) :
    (matchRE (.star cls :: rest) (f ++ tail)).isSome = true := by
  simp only [matchRE]
  apply findSome_isSome_of_mem _ _ f.length
  · rw [List.mem_reverse, List.mem_range]
    have := takeWhile_all_append cls f tail hf
    omega
  · rw [List.drop_left]
    exact h

theorem matchRE_alt_ci_succeeds (ss : List (List Char)) (rest : List RE)
    (p xs tail : List Char) (hmem : p ∈ ss) (hx : xs.map Char.toLower = p)
    (hrest : (matchRE rest tail).isSome = true) :
    (matchRE (.alt ss true :: rest) (xs ++ tail)).isSome = true := by
  simp only [matchRE]
  apply findSome_isSome_of_mem _ ss p hmem
  simp only [preTest, if_true]
  rw [if_pos (ciCharsPrefix_append xs p tail hx), length_map_toLower_eq hx, List.drop_left]
  exact hrest

/-- The marker text of the sensitive-instruction removals. -/
def sensMarker : String := "[removed sensitive instructions]"

theorem removeSensitive_eq (body : String) :
    removeSensitive body
      = reSub removePat3 sensMarker (reSub removePat2 sensMarker
          (reSub removePat1 sensMarker body)) := rfl

theorem strContains_mk (l : List Char) (pat : String) :
    strContains (String.mk l) pat = charsInfix pat.data l := rfl

/-- Marker persistence at the reSub level: a marker occurrence in the input
survives a further replacement pass that uses the same marker. -/
theorem reSub_keeps_marker (p : List RE) (s : String)
    (hm : strContains s sensMarker = true) :
    strContains (reSub p sensMarker s) sensMarker = true := by
  rw [reSub, strContains_mk]
  exact subAuxF_keeps_marker p sensMarker.data (s.data.length + 1) s.data hm
    (Nat.succ_ne_zero _)

/-- A reSub pass whose pattern matches somewhere in the input leaves the marker
in its output. -/
theorem reSub_marker_of_match (p : List RE) (s : String)
    (h : ∃ n, (matchRE p (s.data.drop n)).isSome = true) :
    strContains (reSub p sensMarker s) sensMarker = true := by
  rw [reSub, strContains_mk]
  exact subAuxF_marker_of_match p sensMarker.data (s.data.length + 1) s.data
    (Nat.succ_ne_zero _) h

/-- Claim C6, amended: Python's `.` does not match a newline, so the free text
between the anchors must stay on one line.  Any body containing "click", then
"link", then one of login, "log in", verify, reset in that order, with
newline-free text between the anchors (case-insensitively), gets the literal
marker "[removed sensitive instructions]" into the output of the
pattern-removal stage; likewise "enter" then "password", and "provide" then
"credentials". -/
theorem c6_sensitive_patterns_removed :
    (∀ pre a1 f1 a2 f2 a3 post : String,
        lowerStr a1 = "click" → f1.data.all nonNl = true →
        lowerStr a2 = "link" → f2.data.all nonNl = true →
        (lowerStr a3 = "login" ∨ lowerStr a3 = "log in" ∨ lowerStr a3 = "verify" ∨
          lowerStr a3 = "reset") →
        strContains (removeSensitive (pre ++ a1 ++ f1 ++ a2 ++ f2 ++ a3 ++ post))
          sensMarker = true) ∧
    (∀ pre a1 f1 a2 post : String,
        lowerStr a1 = "enter" → f1.data.all nonNl = true → lowerStr a2 = "password" →
        strContains (removeSensitive (pre ++ a1 ++ f1 ++ a2 ++ post)) sensMarker = true) ∧
    (∀ pre a1 f1 a2 post : String,
        lowerStr a1 = "provide" → f1.data.all nonNl = true → lowerStr a2 = "credentials" →
        strContains (removeSensitive (pre ++ a1 ++ f1 ++ a2 ++ post)) sensMarker = true) := by
  refine ⟨?_, ?_, ?_⟩
  · intro pre a1 f1 a2 f2 a3 post h1 hf1 h2 hf2 h3
    have halt : ∃ p ∈ ["login".data, "log in".data, "verify".data, "reset".data],
        a3.data.map Char.toLower = p := by
      rcases h3 with h3 | h3 | h3 | h3
      · exact ⟨"login".data, by simp, congrArg String.data h3⟩
      · exact ⟨"log in".data, by simp, congrArg String.data h3⟩
      · exact ⟨"verify".data, by simp, congrArg String.data h3⟩
      · exact ⟨"reset".data, by simp, congrArg String.data h3⟩
    obtain ⟨p, hpmem, hp⟩ := halt
    have hb : (pre ++ a1 ++ f1 ++ a2 ++ f2 ++ a3 ++ post).data
        = pre.data ++ (a1.data ++ (f1.data ++ (a2.data ++ (f2.data
            ++ (a3.data ++ post.data))))) := by
      simp [String.data_append]
    have hex : ∃ n,
        (matchRE removePat1 ((pre ++ a1 ++ f1 ++ a2 ++ f2 ++ a3 ++ post).data.drop n)).isSome
          = true := by
      refine ⟨pre.data.length, ?_⟩
      rw [hb, List.drop_left]
      unfold removePat1
      exact matchRE_lit_ci_succeeds _ _ _ _ (congrArg String.data h1)
        (matchRE_star_succeeds _ _ _ _ hf1
          (matchRE_lit_ci_succeeds _ _ _ _ (congrArg String.data h2)
            (matchRE_star_succeeds _ _ _ _ hf2
              (matchRE_alt_ci_succeeds _ _ p _ _ hpmem hp rfl))))
    rw [removeSensitive_eq]
    exact reSub_keeps_marker _ _ (reSub_keeps_marker _ _ (reSub_marker_of_match _ _ hex))
  · intro pre a1 f1 a2 post h1 hf1 h2
    rw [removeSensitive_eq]
    cases hfm : firstMatch removePat1 (pre ++ a1 ++ f1 ++ a2 ++ post).data with
    | some pr =>
        refine reSub_keeps_marker _ _ (reSub_keeps_marker _ _ ?_)
        rw [reSub, strContains_mk]
        exact subAuxF_fired removePat1 sensMarker.data pr _ _ hfm (Nat.succ_ne_zero _)
    | none =>
        have e1 : reSub removePat1 sensMarker (pre ++ a1 ++ f1 ++ a2 ++ post)
            = (pre ++ a1 ++ f1 ++ a2 ++ post) := by
          show String.mk (subAuxF removePat1 _ _ _) = _
          rw [subAuxF_unchanged _ _ _ _ hfm]
        rw [e1]
        refine reSub_keeps_marker _ _ (reSub_marker_of_match _ _ ?_)
        refine ⟨pre.data.length, ?_⟩
        have hb : (pre ++ a1 ++ f1 ++ a2 ++ post).data
            = pre.data ++ (a1.data ++ (f1.data ++ (a2.data ++ post.data))) := by
          simp [String.data_append]
        rw [hb, List.drop_left]
        unfold removePat2
        exact matchRE_lit_ci_succeeds _ _ _ _ (congrArg String.data h1)
          (matchRE_star_succeeds _ _ _ _ hf1
            (matchRE_lit_ci_succeeds _ _ _ _ (congrArg String.data h2) rfl))
  · intro pre a1 f1 a2 post h1 hf1 h2
    rw [removeSensitive_eq]
    have hb : (pre ++ a1 ++ f1 ++ a2 ++ post).data
        = pre.data ++ (a1.data ++ (f1.data ++ (a2.data ++ post.data))) := by
      simp [String.data_append]
    cases hfm : firstMatch removePat1 (pre ++ a1 ++ f1 ++ a2 ++ post).data with
    | some pr =>
        refine reSub_keeps_marker _ _ (reSub_keeps_marker _ _ ?_)
        rw [reSub, strContains_mk]
        exact subAuxF_fired removePat1 sensMarker.data pr _ _ hfm (Nat.succ_ne_zero _)
    | none =>
        have e1 : reSub removePat1 sensMarker (pre ++ a1 ++ f1 ++ a2 ++ post)
            = (pre ++ a1 ++ f1 ++ a2 ++ post) := by
          show String.mk (subAuxF removePat1 _ _ _) = _
          rw [subAuxF_unchanged _ _ _ _ hfm]
        rw [e1]
        cases hfm2 : firstMatch removePat2 (pre ++ a1 ++ f1 ++ a2 ++ post).data with
        | some pr2 =>
            refine reSub_keeps_marker _ _ ?_
            rw [reSub, strContains_mk]
            exact subAuxF_fired removePat2 sensMarker.data pr2 _ _ hfm2 (Nat.succ_ne_zero _)
        | none =>
            have e2 : reSub removePat2 sensMarker (pre ++ a1 ++ f1 ++ a2 ++ post)
                = (pre ++ a1 ++ f1 ++ a2 ++ post) := by
              show String.mk (subAuxF removePat2 _ _ _) = _
              rw [subAuxF_unchanged _ _ _ _ hfm2]
            rw [e2]
            refine reSub_marker_of_match _ _ ?_
            refine ⟨pre.data.length, ?_⟩
            rw [hb, List.drop_left]
            unfold removePat3
            exact matchRE_lit_ci_succeeds _ _ _ _ (congrArg String.data h1)
              (matchRE_star_succeeds _ _ _ _ hf1
                (matchRE_lit_ci_succeeds _ _ _ _ (congrArg String.data h2) rfl))

/-- Witness for C6 (amended) at concrete anchor strings. -/
theorem c6_sensitive_patterns_removed_witness :
    strContains (removeSensitive ("" ++ "click" ++ "" ++ "link" ++ "" ++ "login" ++ ""))
      sensMarker = true :=
  c6_sensitive_patterns_removed.1 "" "click" "" "link" "" "login" ""
    (by decide) (by decide) (by decide) (by decide) (Or.inl (by decide))

/-- Counterexample to C6 as stated: with arbitrary free text between the
anchors the claim fails, because Python's `.` does not match a newline.  Here
"click", "link" and "verify" occur in order, the free text between the first
two anchors being a newline, yet the removal stage replaces nothing. -/
theorem c6_counterexample :
    strContains (removeSensitive ("click" ++ "\n" ++ "link" ++ " " ++ "verify"))
      sensMarker = false := by decide

/-! ## The no-live-URL invariant of the rewritten body (C10)

A "live URL" is an occurrence of the literal `http://` or `https://` followed
by at least one non-whitespace character, i.e. exactly a position where the
URL-removal pattern `https?://\S+` matches. -/

/-- Is the character at offset n present and non-whitespace? -/
def nonSpaceAt (cs : List Char) (n : Nat) : Bool :=
  match cs.drop n with
  | [] => false
  | c :: _ => nonWsCls c

/-- Does cs start with the given URL scheme literal followed by a non-space? -/
def startsUrlWith (lit cs : List Char) : Bool :=
  charsPrefix lit cs && nonSpaceAt cs lit.length

/-- Does cs start with a live URL? -/
def startsUrl (cs : List Char) : Bool :=
  startsUrlWith "https://".data cs || startsUrlWith "http://".data cs

/-- No suffix of cs starts with a live URL. -/
def noUrl (cs : List Char) : Prop := ∀ i : Nat, startsUrl (cs.drop i) = false

/-- Does the string contain a live URL anywhere? -/
def hasLiveUrl (s : String) : Bool :=
  (List.range s.data.length).any (fun i => startsUrl (s.data.drop i))

theorem hasLiveUrl_eq_false_of_noUrl (s : String) (h : noUrl s.data) :
    hasLiveUrl s = false := by
  rw [hasLiveUrl]
  rw [List.any_eq_false]
  intro i _
  simp [h i]

/-- The plus node at the end of a pattern succeeds exactly on a leading
class character. -/
theorem matchRE_plus_nil_isSome (cls : Char → Bool) (t : List Char) :
    (matchRE [.plus cls] t).isSome
      = (match t with | [] => false | c :: _ => cls c) := by
  cases t with
  | nil => rfl
  | cons c cs =>
      cases hc : cls c with
      | false => simp [matchRE, List.takeWhile_cons, hc]
      | true =>
          simp only [matchRE, List.takeWhile_cons, hc, if_true, List.length_cons]
          rw [List.range_succ, List.reverse_append]
          simp [List.findSome?_cons]

/-- The URL pattern matches exactly at live-URL positions. -/
theorem matchRE_urlPat_isSome (cs : List Char) :
    (matchRE urlPat cs).isSome = startsUrl cs := by
  have e : matchRE urlPat cs
      = List.findSome?
          (fun s => if preTest false s cs = true
                    then matchRE [.plus nonWsCls] (cs.drop s.length) else none)
          ["https://".data, "http://".data] := rfl
  have g1 : nonSpaceAt cs ("https://".data.length)
      = (matchRE [.plus nonWsCls] (cs.drop ("https://".data.length))).isSome := by
    rw [nonSpaceAt]
    exact (matchRE_plus_nil_isSome nonWsCls _).symm
  have g2 : nonSpaceAt cs ("http://".data.length)
      = (matchRE [.plus nonWsCls] (cs.drop ("http://".data.length))).isSome := by
    rw [nonSpaceAt]
    exact (matchRE_plus_nil_isSome nonWsCls _).symm
  rw [e, List.findSome?_cons, List.findSome?_cons, List.findSome?_nil,
    startsUrl, startsUrlWith, startsUrlWith, g1, g2]
  have hpt : ∀ s, preTest false s cs = charsPrefix s cs := fun s => rfl
  simp only [hpt]
  cases hp1 : charsPrefix "https://".data cs <;>
    cases hp2 : charsPrefix "http://".data cs <;>
      cases hm1 : matchRE [.plus nonWsCls] (cs.drop ("https://".data.length)) <;>
        cases hm2 : matchRE [.plus nonWsCls] (cs.drop ("http://".data.length)) <;>
          simp [hp1, hp2, hm1, hm2]

/-! ## Consumption bounds for the matcher and the leftmost-match scanner -/

theorem charsPrefix_length_le (p : List Char) :
    ∀ cs : List Char, charsPrefix p cs = true → p.length ≤ cs.length := by
  induction p with
  | nil => intro cs _; simp
  | cons x xs ih =>
      intro cs h
      cases cs with
      | nil => exact absurd h (by simp [charsPrefix])
      | cons c cs =>
          rw [charsPrefix, Bool.and_eq_true] at h
          have := ih cs h.2
          simp only [List.length_cons]
          omega

theorem ciCharsPrefix_length_le (p : List Char) :
    ∀ cs : List Char, ciCharsPrefix p cs = true → p.length ≤ cs.length := by
  induction p with
  | nil => intro cs _; simp
  | cons x xs ih =>
      intro cs h
      cases cs with
      | nil => exact absurd h (by simp [ciCharsPrefix])
      | cons c cs =>
          rw [ciCharsPrefix, Bool.and_eq_true] at h
          have := ih cs h.2
          simp only [List.length_cons]
          omega

theorem preTest_length_le (ci : Bool) (p cs : List Char) (h : preTest ci p cs = true) :
    p.length ≤ cs.length := by
  rw [preTest] at h
  cases ci with
  | false => exact charsPrefix_length_le p cs (by simpa using h)
  | true => exact ciCharsPrefix_length_le p cs (by simpa using h)

theorem exists_of_findSome_eq_some {α β : Type} (f : α → Option β) :
    ∀ (l : List α) (b : β), l.findSome? f = some b → ∃ x ∈ l, f x = some b := by
  intro l
  induction l with
  | nil => intro b h; exact absurd h (by simp)
  | cons a l ih =>
      intro b h
      rw [List.findSome?_cons] at h
      cases ha : f a with
      | some b2 =>
          simp only [ha] at h
          exact ⟨a, by simp, by rw [ha, h]⟩
      | none =>
          simp only [ha] at h
          obtain ⟨x, hx, hfx⟩ := ih b h
          exact ⟨x, by simp [hx], hfx⟩

theorem matchRE_length_le : ∀ (p : List RE) (cs r : List Char),
    matchRE p cs = some r → r.length ≤ cs.length := by
  intro p
  induction p with
  | nil =>
      intro cs r h
      rw [matchRE] at h
      cases h
      exact le_refl _
  | cons hd rest ih =>
      intro cs r h
      cases hd with
      | lit s ci =>
          rw [matchRE] at h
          by_cases hp : preTest ci s cs = true
          · rw [if_pos hp] at h
            have := ih _ _ h
            have := List.length_drop s.length cs
            omega
          · rw [if_neg hp] at h; cases h
      | star cls =>
          rw [matchRE] at h
          obtain ⟨n, hn, hfx⟩ := exists_of_findSome_eq_some _ _ _ h
          have := ih _ _ hfx
          have := List.length_drop n cs
          omega
      | plus cls =>
          rw [matchRE] at h
          obtain ⟨k, hk, hfx⟩ := exists_of_findSome_eq_some _ _ _ h
          have := ih _ _ hfx
          have := List.length_drop (k + 1) cs
          omega
      | alt ss ci =>
          rw [matchRE] at h
          obtain ⟨s, hs, hfx⟩ := exists_of_findSome_eq_some _ _ _ h
          by_cases hp : preTest ci s cs = true
          · rw [if_pos hp] at hfx
            have := ih _ _ hfx
            have := List.length_drop s.length cs
            omega
          · rw [if_neg hp] at hfx; cases hfx

theorem takeWhile_length_le (cls : Char → Bool) :
    ∀ l : List Char, (l.takeWhile cls).length ≤ l.length := by
  intro l
  induction l with
  | nil => simp
  | cons c cs ih =>
      rw [List.takeWhile_cons]
      cases cls c with
      | false => simp
      | true => simp only [if_true, List.length_cons]; omega

/-- Does the pattern necessarily consume at least one character? -/
def consumesPos : List RE → Bool
  | .lit s _ :: _ => !s.isEmpty
  | .plus _ :: _ => true
  | .alt ss _ :: _ => !ss.isEmpty && ss.all (fun s => !s.isEmpty)
  | _ => false

theorem matchRE_length_lt (p : List RE) (hp : consumesPos p = true) :
    ∀ (cs r : List Char), matchRE p cs = some r → r.length < cs.length := by
  intro cs r h
  cases p with
  | nil =>
      rw [show consumesPos ([] : List RE) = false from rfl] at hp
      simp at hp
  | cons hd rest =>
      cases hd with
      | lit s ci =>
          rw [show consumesPos (RE.lit s ci :: rest) = !s.isEmpty from rfl] at hp
          rw [matchRE] at h
          by_cases hpre : preTest ci s cs = true
          · rw [if_pos hpre] at h
            have h1 := matchRE_length_le _ _ _ h
            have h2 := preTest_length_le ci s cs hpre
            have h3 := List.length_drop s.length cs
            have h4 : s.length ≠ 0 := by
              simpa [List.isEmpty_iff_length_eq_zero] using hp
            omega
          · rw [if_neg hpre] at h; cases h
      | star cls =>
          rw [show consumesPos (RE.star cls :: rest) = false from rfl] at hp
          simp at hp
      | plus cls =>
          rw [matchRE] at h
          obtain ⟨k, hk, hfx⟩ := exists_of_findSome_eq_some _ _ _ h
          rw [List.mem_reverse, List.mem_range] at hk
          have h1 := matchRE_length_le _ _ _ hfx
          have h2 := List.length_drop (k + 1) cs
          have h3 : (cs.takeWhile cls).length ≤ cs.length := takeWhile_length_le cls cs
          omega
      | alt ss ci =>
          rw [show consumesPos (RE.alt ss ci :: rest) = (!ss.isEmpty && ss.all fun s => !s.isEmpty)
              from rfl, Bool.and_eq_true] at hp
          rw [matchRE] at h
          obtain ⟨s, hs, hfx⟩ := exists_of_findSome_eq_some _ _ _ h
          by_cases hpre : preTest ci s cs = true
          · rw [if_pos hpre] at hfx
            have h1 := matchRE_length_le _ _ _ hfx
            have h2 := preTest_length_le ci s cs hpre
            have h3 := List.length_drop s.length cs
            have h4 : s.length ≠ 0 := by
              have := (List.all_eq_true.mp hp.2) s hs
              simpa [List.isEmpty_iff_length_eq_zero] using this
            omega
          · rw [if_neg hpre] at hfx; cases hfx

/-- Whatever the matcher returns is a suffix of the input. -/
theorem matchRE_suffix : ∀ (p : List RE) (cs r : List Char),
    matchRE p cs = some r → ∃ n, r = cs.drop n := by
  intro p
  induction p with
  | nil =>
      intro cs r h
      rw [matchRE] at h
      cases h
      exact ⟨0, rfl⟩
  | cons hd rest ih =>
      intro cs r h
      cases hd with
      | lit s ci =>
          rw [matchRE] at h
          by_cases hp : preTest ci s cs = true
          · rw [if_pos hp] at h
            obtain ⟨n, hn⟩ := ih _ _ h
            exact ⟨s.length + n, by rw [hn, List.drop_drop]⟩
          · rw [if_neg hp] at h; cases h
      | star cls =>
          rw [matchRE] at h
          obtain ⟨n, _, hfx⟩ := exists_of_findSome_eq_some _ _ _ h
          obtain ⟨m, hm⟩ := ih _ _ hfx
          exact ⟨n + m, by rw [hm, List.drop_drop]⟩
      | plus cls =>
          rw [matchRE] at h
          obtain ⟨k, _, hfx⟩ := exists_of_findSome_eq_some _ _ _ h
          obtain ⟨m, hm⟩ := ih _ _ hfx
          exact ⟨(k + 1) + m, by rw [hm, List.drop_drop]⟩
      | alt ss ci =>
          rw [matchRE] at h
          obtain ⟨s, _, hfx⟩ := exists_of_findSome_eq_some _ _ _ h
          by_cases hp : preTest ci s cs = true
          · rw [if_pos hp] at hfx
            obtain ⟨m, hm⟩ := ih _ _ hfx
            exact ⟨s.length + m, by rw [hm, List.drop_drop]⟩
          · rw [if_neg hp] at hfx; cases hfx

/-- Specification of the leftmost-match scanner: the input splits as
pre ++ mid ++ r where the pattern matches mid (leaving r), and no earlier
start position matches. -/
theorem firstMatch_spec (p : List RE) :
    ∀ (cs pre r : List Char), firstMatch p cs = some (pre, r) →
      (∃ mid, cs = pre ++ mid ++ r ∧ matchRE p (mid ++ r) = some r) ∧
      (∀ i, i < pre.length → matchRE p (cs.drop i) = none) := by
  intro cs
  induction cs with
  | nil =>
      intro pre r h
      cases hm : matchRE p [] with
      | none => simp [firstMatch, hm] at h
      | some r2 =>
          simp only [firstMatch, hm, Option.map_some, Option.some.injEq,
            Prod.mk.injEq] at h
          obtain ⟨hpre, hr⟩ := h
          have hlen := matchRE_length_le p [] _ hm
          have hr0 : r = [] := List.length_eq_zero.mp (by simpa using hlen)
          subst hr0
          exact ⟨⟨[], by simp, by simpa using hm⟩, by simp⟩
  | cons c cs ih =>
      intro pre r h
      simp only [firstMatch] at h
      cases hm : matchRE p (c :: cs) with
      | some r2 =>
          rw [hm, Option.some.injEq, Prod.mk.injEq] at h
          obtain ⟨hpre, hr⟩ := h
          subst hpre
          subst hr
          obtain ⟨n, hn⟩ := matchRE_suffix p (c :: cs) _ hm
          refine ⟨⟨(c :: cs).take n, ?_, ?_⟩, by simp⟩
          · rw [List.nil_append, hn, List.take_append_drop]
          · rw [hn, List.take_append_drop]
            exact hn ▸ hm
      | none =>
          rw [hm] at h
          cases hfm : firstMatch p cs with
          | none => rw [hfm] at h; cases h
          | some pr =>
              rw [hfm] at h
              simp only [Option.map_some] at h
              cases h
              obtain ⟨pre2, r2⟩ := pr
              obtain ⟨⟨mid, hsplit, hmid⟩, hmin⟩ := ih pre2 r2 hfm
              refine ⟨⟨mid, ?_, hmid⟩, ?_⟩
              · show c :: cs = (c :: pre2) ++ mid ++ r2
                simp [hsplit]
              · intro i hi
                cases i with
                | zero => exact hm
                | succ j =>
                    rw [List.drop_succ_cons]
                    exact hmin j (by simpa using hi)

/-- For a positively consuming pattern the scanner's remainder is strictly
shorter than the input. -/
theorem firstMatch_length_lt (p : List RE) (hp : consumesPos p = true)
    (cs pre r : List Char) (h : firstMatch p cs = some (pre, r)) :
    r.length < cs.length := by
  obtain ⟨⟨mid, hsplit, hmid⟩, _⟩ := firstMatch_spec p cs pre r h
  have := matchRE_length_lt p hp (mid ++ r) r hmid
  have hlen : cs.length = pre.length + (mid.length + r.length) := by
    rw [hsplit]; simp
  rw [List.length_append] at this
  omega

/-! ## Seed-freedom: replacement texts that cannot take part in a URL match -/

/-- Do two lists agree wherever both are defined? -/
def compatZip (xs ys : List Char) : Bool := (xs.zip ys).all (fun pq => pq.1 == pq.2)

/-- A replacement text is URL-seed-free when no suffix of it agrees with a URL
scheme literal (so no URL can begin inside it) and no proper suffix of a scheme
literal agrees with it (so no URL begun before it can continue through it). -/
def urlSeedFree (repl : List Char) : Bool :=
  ((List.range repl.length).all (fun k =>
      !compatZip "https://".data (repl.drop k) && !compatZip "http://".data (repl.drop k))) &&
  ((List.range' 1 7).all (fun m => !compatZip ("https://".data.drop m) repl)) &&
  ((List.range' 1 6).all (fun m => !compatZip ("http://".data.drop m) repl))

theorem compatZip_of_prefix_append (p : List Char) :
    ∀ (b z : List Char), charsPrefix p (b ++ z) = true → compatZip p b = true := by
  induction p with
  | nil => intro b z _; rfl
  | cons x xs ih =>
      intro b z h
      cases b with
      | nil => rfl
      | cons c cs =>
          rw [List.cons_append, charsPrefix, Bool.and_eq_true] at h
          simp only [compatZip, List.zip_cons_cons, List.all_cons, Bool.and_eq_true]
          exact ⟨h.1, ih cs z h.2⟩

theorem charsPrefix_append_of_le (lit : List Char) :
    ∀ (a w : List Char), lit.length ≤ a.length → charsPrefix lit (a ++ w) = true →
      charsPrefix lit a = true := by
  induction lit with
  | nil => intro a w _ _; rfl
  | cons x xs ih =>
      intro a w hl hp
      cases a with
      | nil => simp at hl
      | cons c cs =>
          rw [List.cons_append, charsPrefix, Bool.and_eq_true] at hp
          rw [charsPrefix, Bool.and_eq_true]
          exact ⟨hp.1, ih cs w (by simpa using hl) hp.2⟩

theorem charsPrefix_append_left (lit : List Char) :
    ∀ (a w : List Char), charsPrefix lit a = true → charsPrefix lit (a ++ w) = true := by
  intro a w h
  obtain ⟨t, rfl⟩ := (charsPrefix_iff lit a).1 h
  rw [charsPrefix_iff]
  exact ⟨t ++ w, by simp⟩

theorem charsPrefix_eq_of_length (lit a : List Char) (h : charsPrefix lit a = true)
    (hl : lit.length = a.length) : lit = a := by
  obtain ⟨t, rfl⟩ := (charsPrefix_iff lit a).1 h
  have ht : t = [] := by
    rw [List.length_append] at hl
    exact List.length_eq_zero.mp (by omega)
  simp [ht]

theorem charsPrefix_self_append (lit w : List Char) : charsPrefix lit (lit ++ w) = true := by
  rw [charsPrefix_iff]
  exact ⟨w, rfl⟩

theorem charsPrefix_append_split (a : List Char) :
    ∀ (lit w : List Char), a.length ≤ lit.length → charsPrefix lit (a ++ w) = true →
      charsPrefix (lit.drop a.length) w = true := by
  induction a with
  | nil => intro lit w _ h; simpa using h
  | cons c cs ih =>
      intro lit w hl h
      cases lit with
      | nil => simp at hl
      | cons x xs =>
          rw [List.cons_append, charsPrefix, Bool.and_eq_true] at h
          rw [List.length_cons, List.drop_succ_cons]
          exact ih xs w (by simpa using hl) h.2

theorem nonSpaceAt_append_lt (a w w2 : List Char) (n : Nat) (hn : n < a.length) :
    nonSpaceAt (a ++ w) n = nonSpaceAt (a ++ w2) n := by
  rw [nonSpaceAt, nonSpaceAt,
    List.drop_append_of_le_length (le_of_lt hn),
    List.drop_append_of_le_length (le_of_lt hn)]
  cases hd : a.drop n with
  | nil =>
      have := List.length_drop n a
      rw [hd] at this
      simp at this
      omega
  | cons c rest => rfl

theorem startsUrlWith_of_inner (lit a w w2 : List Char) (hlt : lit.length < a.length)
    (h : startsUrlWith lit (a ++ w) = true) : startsUrlWith lit (a ++ w2) = true := by
  rw [startsUrlWith, Bool.and_eq_true] at h
  obtain ⟨hp, hn⟩ := h
  rw [startsUrlWith, Bool.and_eq_true]
  constructor
  · exact charsPrefix_append_left lit a w2 (charsPrefix_append_of_le lit a w (le_of_lt hlt) hp)
  · rw [← nonSpaceAt_append_lt a w w2 lit.length hlt]
    exact hn

/-- The core transfer: if a live URL starts at the head of `a ++ b ++ z` with
nonempty a and a seed-free b, then a live URL also starts at the head of
`a ++ m ++ r` whenever m begins with a non-space character. -/
theorem startsUrlWith_transfer (lit a b z m r : List Char) (ha : a ≠ [])
    (hcompat2 : ∀ j, 1 ≤ j → j < lit.length → compatZip (lit.drop j) b = false)
    (hm : ∃ c cs, m = c :: cs ∧ nonWsCls c = true)
    (h : startsUrlWith lit (a ++ (b ++ z)) = true) :
    startsUrlWith lit (a ++ (m ++ r)) = true := by
  rcases Nat.lt_trichotomy lit.length a.length with hlt | heq | hgt
  · exact startsUrlWith_of_inner lit a (b ++ z) (m ++ r) hlt h
  · rw [startsUrlWith, Bool.and_eq_true] at h
    have hlita : lit = a :=
      charsPrefix_eq_of_length lit a
        (charsPrefix_append_of_le lit a (b ++ z) (le_of_eq heq) h.1) heq
    obtain ⟨c, cs, rfl, hc⟩ := hm
    rw [startsUrlWith, Bool.and_eq_true]
    constructor
    · rw [hlita]
      exact charsPrefix_self_append a (c :: cs ++ r)
    · rw [nonSpaceAt, heq, List.drop_left]
      exact hc
  · exfalso
    rw [startsUrlWith, Bool.and_eq_true] at h
    have hsplit := charsPrefix_append_split a lit (b ++ z) (le_of_lt hgt) h.1
    have hcz := compatZip_of_prefix_append (lit.drop a.length) b z hsplit
    have hfalse := hcompat2 a.length (List.length_pos.mpr ha) hgt
    rw [hcz] at hfalse
    cases hfalse

/-- Extract the two crossing conditions of seed-freedom. -/
theorem urlSeedFree_parts (bmk : List Char) (hseed : urlSeedFree bmk = true) :
    (∀ k, k < bmk.length →
      compatZip "https://".data (bmk.drop k) = false ∧
      compatZip "http://".data (bmk.drop k) = false) ∧
    (∀ j, 1 ≤ j → j < 8 → compatZip ("https://".data.drop j) bmk = false) ∧
    (∀ j, 1 ≤ j → j < 7 → compatZip ("http://".data.drop j) bmk = false) := by
  rw [urlSeedFree, Bool.and_eq_true, Bool.and_eq_true] at hseed
  obtain ⟨⟨h1, h2⟩, h3⟩ := hseed
  refine ⟨?_, ?_, ?_⟩
  · intro k hk
    have := List.all_eq_true.mp h1 k (List.mem_range.mpr hk)
    rw [Bool.and_eq_true] at this
    exact ⟨by simpa using this.1, by simpa using this.2⟩
  · intro j h1j h2j
    have := List.all_eq_true.mp h2 j (List.mem_range'_1.mpr ⟨h1j, by omega⟩)
    simpa using this
  · intro j h1j h2j
    have := List.all_eq_true.mp h3 j (List.mem_range'_1.mpr ⟨h1j, by omega⟩)
    simpa using this

theorem startsUrl_transfer (a bmk z m r : List Char) (ha : a ≠ [])
    (hseed : urlSeedFree bmk = true)
    (hm : ∃ c cs, m = c :: cs ∧ nonWsCls c = true)
    (h : startsUrl (a ++ (bmk ++ z)) = true) :
    startsUrl (a ++ (m ++ r)) = true := by
  obtain ⟨_, h2, h3⟩ := urlSeedFree_parts bmk hseed
  rw [startsUrl, Bool.or_eq_true] at h
  rw [startsUrl, Bool.or_eq_true]
  rcases h with h | h
  · exact Or.inl (startsUrlWith_transfer "https://".data a bmk z m r ha h2 hm h)
  · exact Or.inr (startsUrlWith_transfer "http://".data a bmk z m r ha h3 hm h)

/-- No live URL starts inside a seed-free text, whatever follows it. -/
theorem startsUrl_seedFree_center (bmk z : List Char) (k : Nat) (hk : k < bmk.length)
    (hseed : urlSeedFree bmk = true) : startsUrl (bmk.drop k ++ z) = false := by
  obtain ⟨h1, _, _⟩ := urlSeedFree_parts bmk hseed
  have hA : startsUrlWith "https://".data (bmk.drop k ++ z) = false := by
    cases hpre : charsPrefix "https://".data (bmk.drop k ++ z) with
    | false => rw [startsUrlWith, hpre, Bool.false_and]
    | true =>
        exfalso
        have := compatZip_of_prefix_append "https://".data (bmk.drop k) z hpre
        rw [(h1 k hk).1] at this
        cases this
  have hB : startsUrlWith "http://".data (bmk.drop k ++ z) = false := by
    cases hpre : charsPrefix "http://".data (bmk.drop k ++ z) with
    | false => rw [startsUrlWith, hpre, Bool.false_and]
    | true =>
        exfalso
        have := compatZip_of_prefix_append "http://".data (bmk.drop k) z hpre
        rw [(h1 k hk).2] at this
        cases this
  rw [startsUrl, hA, hB]
  rfl

/-- One replacement step keeps the output clean: the pre-match region was
match-free, the marker is seed-free, and the recursively rewritten tail is
clean. -/
theorem noUrl_assemble (a mid r marker out2 : List Char)
    (hseed : urlSeedFree marker = true)
    (hmid : ∃ c cs, mid = c :: cs ∧ nonWsCls c = true)
    (hpre : ∀ i, i < a.length → startsUrl ((a ++ (mid ++ r)).drop i) = false)
    (hout : noUrl out2) :
    noUrl (a ++ marker ++ out2) := by
  intro i
  rw [List.append_assoc]
  by_cases hia : i < a.length
  · rw [List.drop_append_of_le_length (le_of_lt hia)]
    cases hs : startsUrl (a.drop i ++ (marker ++ out2)) with
    | false => rfl
    | true =>
        exfalso
        have hane : a.drop i ≠ [] := by
          intro hnil
          have hlen := List.length_drop i a
          rw [hnil] at hlen
          simp at hlen
          omega
        have htr := startsUrl_transfer (a.drop i) marker out2 mid r hane hseed hmid hs
        have hp := hpre i hia
        rw [List.drop_append_of_le_length (le_of_lt hia)] at hp
        rw [htr] at hp
        cases hp
  · obtain ⟨k, rfl⟩ : ∃ k, i = a.length + k := ⟨i - a.length, by omega⟩
    rw [List.drop_append]
    by_cases hkm : k < marker.length
    · rw [List.drop_append_of_le_length (le_of_lt hkm)]
      exact startsUrl_seedFree_center marker out2 k hkm hseed
    · obtain ⟨j, rfl⟩ : ∃ j, k = marker.length + j := ⟨k - marker.length, by omega⟩
      rw [List.drop_append]
      exact hout j

theorem startsUrl_head (t : List Char) (h : startsUrl t = true) :
    ∃ c cs, t = c :: cs ∧ nonWsCls c = true := by
  rw [startsUrl, Bool.or_eq_true] at h
  have e1 : "https://".data = 'h' :: "ttps://".data := rfl
  have e2 : "http://".data = 'h' :: "ttp://".data := rfl
  rcases h with h | h
  · rw [startsUrlWith, Bool.and_eq_true] at h
    obtain ⟨z, hz⟩ := (charsPrefix_iff _ t).1 h.1
    refine ⟨'h', "ttps://".data ++ z, ?_, by decide⟩
    rw [hz, e1, List.cons_append]
  · rw [startsUrlWith, Bool.and_eq_true] at h
    obtain ⟨z, hz⟩ := (charsPrefix_iff _ t).1 h.1
    refine ⟨'h', "ttp://".data ++ z, ?_, by decide⟩
    rw [hz, e2, List.cons_append]

theorem mid_head_of_urlPat (mid r : List Char) (h : matchRE urlPat (mid ++ r) = some r) :
    ∃ c cs, mid = c :: cs ∧ nonWsCls c = true := by
  have hs : startsUrl (mid ++ r) = true := by
    rw [← matchRE_urlPat_isSome, h]
    rfl
  have hlt : r.length < (mid ++ r).length := matchRE_length_lt urlPat (by decide) _ _ h
  cases mid with
  | nil => simp at hlt
  | cons d ds =>
      obtain ⟨c, cs, hcons, hc⟩ := startsUrl_head _ hs
      rw [List.cons_append] at hcons
      rw [List.cons.injEq] at hcons
      exact ⟨d, ds, rfl, hcons.1 ▸ hc⟩

theorem ws_toLower_self (c : Char) (h : c.isWhitespace = true) : c.toLower = c := by
  simp [Char.isWhitespace] at h
  rcases h with ((h | h) | h) | h <;> subst h <;> decide

theorem mid_head_of_litCi (c0 : Char) (w' : List Char)
    (hc0 : c0.isWhitespace = false) (mid r : List Char) (h : matchRE [.lit (c0 :: w') true] (mid ++ r) = some r) :
    ∃ c cs, mid = c :: cs ∧ nonWsCls c = true := by
  have hlt : r.length < (mid ++ r).length :=
    matchRE_length_lt [.lit (c0 :: w') true] rfl _ _ h
  cases mid with
  | nil => simp at hlt
  | cons d ds =>
      rw [matchRE] at h
      by_cases hp : preTest true (c0 :: w') ((d :: ds) ++ r) = true
      · have hci : ciCharsPrefix (c0 :: w') (d :: (ds ++ r)) = true := by
          simpa [preTest] using hp
        rw [ciCharsPrefix, Bool.and_eq_true, beq_iff_eq] at hci
        refine ⟨d, ds, rfl, ?_⟩
        by_cases hd : d.isWhitespace = true
        · exfalso
          have hdl : d.toLower = d := ws_toLower_self d hd
          rw [hdl] at hci
          rw [hci.1] at hc0
          rw [hd] at hc0
          cases hc0
        · simp [nonWsCls, hd]
      · rw [if_neg hp] at h
        cases h

/-- The URL-removal pass leaves no live URL, whatever the input. -/
theorem subAuxF_urlPat_noUrl (marker : List Char) (hseed : urlSeedFree marker = true) :
    ∀ (fuel : Nat) (cs : List Char), cs.length < fuel →
      noUrl (subAuxF urlPat marker fuel cs) := by
  intro fuel
  induction fuel with
  | zero => intro cs h; omega
  | succ fuel ih =>
      intro cs hcs
      cases hfm : firstMatch urlPat cs with
      | none =>
          rw [subAuxF_unchanged urlPat marker (fuel + 1) cs hfm]
          intro i
          rw [← matchRE_urlPat_isSome, firstMatch_none urlPat cs hfm i]
          rfl
      | some pr =>
          obtain ⟨pre, r⟩ := pr
          obtain ⟨⟨mid, hsplit, hmid⟩, hmin⟩ := firstMatch_spec urlPat cs pre r hfm
          have hr : r.length < cs.length :=
            firstMatch_length_lt urlPat (by decide) cs pre r hfm
          simp only [subAuxF, hfm]
          apply noUrl_assemble pre mid r marker _ hseed
            (mid_head_of_urlPat mid r hmid) ?_ (ih r (by omega))
          intro i hi
          have hn := hmin i hi
          rw [hsplit, List.append_assoc] at hn
          rw [← matchRE_urlPat_isSome, hn]
          rfl

/-- A case-insensitive literal replacement pass preserves URL-cleanliness when
its replacement text is seed-free and the literal starts with a non-whitespace
lowercase-invariant character. -/
theorem subAuxF_litCi_noUrl (c0 : Char) (w' : List Char)
    (hc0 : c0.isWhitespace = false) (marker : List Char) (hseed : urlSeedFree marker = true) :
    ∀ (fuel : Nat) (cs : List Char), cs.length < fuel → noUrl cs →
      noUrl (subAuxF [.lit (c0 :: w') true] marker fuel cs) := by
  intro fuel
  induction fuel with
  | zero => intro cs h; omega
  | succ fuel ih =>
      intro cs hcs hclean
      cases hfm : firstMatch [.lit (c0 :: w') true] cs with
      | none =>
          rw [subAuxF_unchanged _ _ _ _ hfm]
          exact hclean
      | some pr =>
          obtain ⟨pre, r⟩ := pr
          obtain ⟨⟨mid, hsplit, hmid⟩, _⟩ := firstMatch_spec _ cs pre r hfm
          have hr : r.length < cs.length :=
            firstMatch_length_lt [.lit (c0 :: w') true] rfl cs pre r hfm
          have hcleanr : noUrl r := by
            intro i
            have hcl := hclean (pre.length + (mid.length + i))
            rw [hsplit, List.append_assoc, List.drop_append, List.drop_append] at hcl
            exact hcl
          simp only [subAuxF, hfm]
          apply noUrl_assemble pre mid r marker _ hseed
            (mid_head_of_litCi c0 w' hc0 mid r hmid) ?_ (ih r (by omega) hcleanr)
          intro i hi
          have hcl := hclean i
          rw [hsplit, List.append_assoc] at hcl
          exact hcl

theorem startsUrlWith_take_contra (lit t cl : List Char) (i m : Nat)
    (hlit : lit = "https://".data ∨ lit = "http://".data)
    (hi : i < (t.take m).length)
    (ht : noUrl t)
    (hcompat2 : ∀ j, 1 ≤ j → j < lit.length → compatZip (lit.drop j) cl = false)
    (hcl : cl = [] ∨ ∃ c rest, cl = c :: rest ∧ c.isWhitespace = true)
    (h : startsUrlWith lit ((t.take m).drop i ++ cl) = true) : False := by
  have hA2 : (t.take m).drop i = (t.drop i).take (m - i) := List.drop_take m i t
  have hAne : (t.take m).drop i ≠ [] := by
    intro hnil
    have hlen : ((t.take m).drop i).length = 0 := by rw [hnil]; rfl
    rw [List.length_drop] at hlen
    omega
  have htd : t.drop i = (t.take m).drop i ++ (t.drop i).drop (m - i) := by
    rw [hA2]
    exact (List.take_append_drop _ _).symm
  rcases Nat.lt_trichotomy lit.length ((t.take m).drop i).length with hlt | heq | hgt
  · have hvia := startsUrlWith_of_inner lit ((t.take m).drop i) cl
      ((t.drop i).drop (m - i)) hlt h
    have hsu : startsUrl (t.drop i) = true := by
      rw [htd, startsUrl, Bool.or_eq_true]
      rcases hlit with rfl | rfl
      · exact Or.inl hvia
      · exact Or.inr hvia
    rw [ht i] at hsu
    cases hsu
  · rw [startsUrlWith, Bool.and_eq_true] at h
    obtain ⟨hp, hn⟩ := h
    rw [nonSpaceAt, heq, List.drop_left] at hn
    rcases hcl with rfl | ⟨c, rest, rfl, hws⟩
    · cases hn
    · have hnc : nonWsCls c = true := hn
      rw [show nonWsCls c = !c.isWhitespace from rfl, hws] at hnc
      cases hnc
  · rw [startsUrlWith, Bool.and_eq_true] at h
    obtain ⟨hp, hn⟩ := h
    have hsplitp := charsPrefix_append_split ((t.take m).drop i) lit cl (le_of_lt hgt) hp
    have hcz : compatZip (lit.drop ((t.take m).drop i).length) cl = true := by
      apply compatZip_of_prefix_append _ cl []
      rw [List.append_nil]
      exact hsplitp
    have hfalse := hcompat2 ((t.take m).drop i).length (List.length_pos.mpr hAne) hgt
    rw [hcz] at hfalse
    cases hfalse

/-- Appending a seed-free, whitespace-led closing to a prefix of a clean text
keeps it clean. -/
theorem noUrl_take_append (t cl : List Char) (m : Nat)
    (ht : noUrl t) (hseed : urlSeedFree cl = true)
    (hcl : cl = [] ∨ ∃ c rest, cl = c :: rest ∧ c.isWhitespace = true) :
    noUrl (t.take m ++ cl) := by
  obtain ⟨_, h2, h3⟩ := urlSeedFree_parts cl hseed
  intro i
  by_cases hi : i < (t.take m).length
  · rw [List.drop_append_of_le_length (le_of_lt hi)]
    cases hs : startsUrl ((t.take m).drop i ++ cl) with
    | false => rfl
    | true =>
        exfalso
        rw [startsUrl, Bool.or_eq_true] at hs
        rcases hs with hs | hs
        · exact startsUrlWith_take_contra "https://".data t cl i m (Or.inl rfl) hi ht
            (fun j a b => h2 j a b) hcl hs
        · exact startsUrlWith_take_contra "http://".data t cl i m (Or.inr rfl) hi ht
            (fun j a b => h3 j a b) hcl hs
  · obtain ⟨k, rfl⟩ : ∃ k, i = (t.take m).length + k := ⟨i - (t.take m).length, by omega⟩
    rw [List.drop_append]
    by_cases hk : k < cl.length
    · have hc := startsUrl_seedFree_center cl [] k hk hseed
      rwa [List.append_nil] at hc
    · rw [List.drop_eq_nil_of_le (by omega)]
      decide

theorem dropWhile_eq_drop (p : Char → Bool) :
    ∀ l : List Char, ∃ n, n ≤ l.length ∧ l.dropWhile p = l.drop n := by
  intro l
  induction l with
  | nil => exact ⟨0, by simp, rfl⟩
  | cons c cs ih =>
      by_cases hc : p c = true
      · obtain ⟨n, hn, he⟩ := ih
        refine ⟨n + 1, by simp only [List.length_cons]; omega, ?_⟩
        rw [List.dropWhile_cons, if_pos hc, he, List.drop_succ_cons]
      · refine ⟨0, by simp, ?_⟩
        rw [List.dropWhile_cons, if_neg hc, List.drop_zero]

theorem reverse_dropWhile_take (p : Char → Bool) (t : List Char) :
    ∃ m, (t.reverse.dropWhile p).reverse = t.take m := by
  obtain ⟨n, hn, he⟩ := dropWhile_eq_drop p t.reverse
  rw [List.length_reverse] at hn
  refine ⟨t.length - n, ?_⟩
  rw [he]
  have hsplit : t = t.take (t.length - n) ++ t.drop (t.length - n) :=
    (List.take_append_drop _ t).symm
  have hrev : t.reverse
      = (t.drop (t.length - n)).reverse ++ (t.take (t.length - n)).reverse := by
    conv_lhs => rw [hsplit]
    rw [List.reverse_append]
  have hlen : ((t.drop (t.length - n)).reverse).length = n := by
    rw [List.length_reverse, List.length_drop]
    omega
  rw [hrev, List.drop_left' hlen, List.reverse_reverse]

/-- Python str.strip keeps a contiguous middle part of the string. -/
theorem pyStrip_data (s : String) :
    ∃ n m, (pyStrip s).data = (s.data.drop n).take m := by
  obtain ⟨n, hn, he⟩ := dropWhile_eq_drop Char.isWhitespace s.data
  obtain ⟨m, hm⟩ := reverse_dropWhile_take Char.isWhitespace
    (s.data.dropWhile Char.isWhitespace)
  refine ⟨n, m, ?_⟩
  show ((s.data.dropWhile Char.isWhitespace).reverse.dropWhile Char.isWhitespace).reverse = _
  rw [hm, he]

theorem addClosing_noUrl (s : String) (h : noUrl s.data) : noUrl (addClosing s).data := by
  rw [addClosing]
  by_cases hb : strContains (lowerStr s) "thank you" = true
  · rw [if_pos hb]
    exact h
  · rw [if_neg hb]
    have he : (pyStrip s ++ "\n\nThank you,\nCustomer Support Team").data
        = (pyStrip s).data ++ ("\n\nThank you,\nCustomer Support Team").data :=
      String.data_append _ _
    rw [he]
    obtain ⟨n, m, hd⟩ := pyStrip_data s
    rw [hd]
    apply noUrl_take_append (s.data.drop n) _ m ?_ (by decide) ?_
    · intro i
      rw [List.drop_drop]
      exact h (n + i)
    · exact Or.inr ⟨'\n', "\nThank you,\nCustomer Support Team".data, rfl, by decide⟩

theorem removeUrls_noUrl (s : String) : noUrl (removeUrls s).data := by
  show noUrl (subAuxF urlPat "[link removed]".data (s.data.length + 1) s.data)
  exact subAuxF_urlPat_noUrl "[link removed]".data (by decide) (s.data.length + 1) s.data
    (by omega)

theorem reSubLit_noUrl (bad good : String) (c0 : Char) (w' : List Char)
    (hbad : bad.data = c0 :: w') (hc0 : c0.isWhitespace = false)
    (hseed : urlSeedFree good.data = true) (s : String) (h : noUrl s.data) :
    noUrl (reSubLit bad good s).data := by
  show noUrl (subAuxF [.lit bad.data true] good.data (s.data.length + 1) s.data)
  rw [hbad]
  exact subAuxF_litCi_noUrl c0 w' hc0 good.data hseed (s.data.length + 1) s.data
    (by omega) h

theorem softenBody_noUrl (s : String) (h : noUrl s.data) : noUrl (softenBody s).data := by
  show noUrl (reSubLit "urgent" "important"
    (reSubLit "immediately" "soon"
      (reSubLit "within 24 hours" "in the near future"
        (reSubLit "will be disabled" "may be temporarily limited"
          (reSubLit "will be closed" "may require your attention" s))))).data
  apply reSubLit_noUrl _ _ 'u' "rgent".data rfl (by decide) (by decide)
  apply reSubLit_noUrl _ _ 'i' "mmediately".data rfl (by decide) (by decide)
  apply reSubLit_noUrl _ _ 'w' "ithin 24 hours".data rfl (by decide) (by decide)
  apply reSubLit_noUrl _ _ 'w' "ill be disabled".data rfl (by decide) (by decide)
  apply reSubLit_noUrl _ _ 'w' "ill be closed".data rfl (by decide) (by decide)
  exact h

/-- Claim C10: the rewritten body contains no live URL: after the rewrite, no
occurrence of http:// or https:// followed by a non-whitespace character
remains, and neither the softening replacements nor the appended closing block
can introduce or expose one. -/
theorem c10_no_live_url (subject body : String) :
    hasLiveUrl (rewrite_to_safe subject body).2 = false := by
  apply hasLiveUrl_eq_false_of_noUrl
  show noUrl (addClosing (softenBody (removeUrls (removeSensitive body)))).data
  exact addClosing_noUrl _ (softenBody_noUrl _ (removeUrls_noUrl _))

/-! ## diff_words_html (backend/main.py lines 254-290)

The source calls Python's difflib.SequenceMatcher, a stdlib dependency whose
code is not part of this repository.  Following the spec ("any algorithm
producing equivalent opcodes ... is acceptable as long as equal-region
matching is maximal"), the matcher is modelled as the Ratcliff/Obershelp
scheme difflib implements: repeatedly take a longest common contiguous block
(earliest in a, then in b, on ties) and recurse on both sides of it; the
stdlib autojunk heuristic for sequences of 200+ tokens is not modelled. -/

/-- Python str.split() with no separator: maximal non-whitespace runs. -/
def splitWsAux : List Char → List Char → List String
  | [], acc => if acc.isEmpty then [] else [String.mk acc.reverse]
  | c :: cs, acc =>
      if c.isWhitespace then
        (if acc.isEmpty then splitWsAux cs [] else String.mk acc.reverse :: splitWsAux cs [])
      else splitWsAux cs (c :: acc)

def pySplit (s : String) : List String := splitWsAux s.data []

/-- Length of the common prefix of two token lists. -/
def matchLen : List String → List String → Nat
  | x :: xs, y :: ys => if x = y then matchLen xs ys + 1 else 0
  | _, _ => 0

def candPairs (la lb : Nat) : List (Nat × Nat) :=
  (List.range la).flatMap (fun i => (List.range lb).map (fun j => (i, j)))

/-- The longest matching block: the maximal k with a[i:i+k] = b[j:j+k],
preferring the earliest i then the earliest j on ties, as difflib does. -/
def bestMatch (a b : List String) : Nat × Nat × Nat :=
  (candPairs a.length b.length).foldl
    (fun best ij =>
      let k := matchLen (a.drop ij.1) (b.drop ij.2)
      if best.2.2 < k then (ij.1, ij.2, k) else best)
    (0, 0, 0)

/-- Fuelled divide-and-conquer construction of the matching blocks;
`a.length + 1` fuel always suffices. -/
def matchingBlocksF : Nat → List String → List String → List (Nat × Nat × Nat)
  | 0, _, _ => []
  | fuel + 1, a, b =>
      let m := bestMatch a b
      if m.2.2 = 0 then []
      else
        matchingBlocksF fuel (a.take m.1) (b.take m.2.1)
          ++ m :: (matchingBlocksF fuel (a.drop (m.1 + m.2.2)) (b.drop (m.2.1 + m.2.2))).map
            (fun bl => (bl.1 + (m.1 + m.2.2), bl.2.1 + (m.2.1 + m.2.2), bl.2.2))

def matchingBlocks (a b : List String) : List (Nat × Nat × Nat) :=
  matchingBlocksF (a.length + 1) a b

inductive Tag where
  | equal
  | delete
  | insert
  | replace
deriving Repr, DecidableEq, BEq

structure Op where
  tag : Tag
  i1 : Nat
  i2 : Nat
  j1 : Nat
  j2 : Nat
deriving Repr, DecidableEq

/-- The gap opcode difflib emits in front of a block: replace, delete or
insert according to which cursor lags. -/
def gapOps (i i2 j j2 : Nat) : List Op :=
  if i < i2 then
    (if j < j2 then [⟨.replace, i, i2, j, j2⟩] else [⟨.delete, i, i2, j, j2⟩])
  else if j < j2 then [⟨.insert, i, i2, j, j2⟩] else []

/-- difflib's get_opcodes walk over the matching blocks; the nil case handles
the trailing sentinel block (la, lb, 0). -/
def opcodesFromBlocks : List (Nat × Nat × Nat) → Nat → Nat → Nat → Nat → List Op
  | [], i, j, la, lb => gapOps i la j lb
  | (ai, bj, k) :: rest, i, j, la, lb =>
      gapOps i ai j bj
        ++ ⟨.equal, ai, ai + k, bj, bj + k⟩ :: opcodesFromBlocks rest (ai + k) (bj + k) la lb

def getOpcodes (a b : List String) : List Op :=
  opcodesFromBlocks (matchingBlocks a b) 0 0 a.length b.length

/-- a[i:j], as the Python slices the renderer takes. -/
def pySlice (l : List String) (i j : Nat) : List String := (l.drop i).take (j - i)

def delWrap (w : String) : String :=
  "<del style=\"background-color:#8b0000;color:white;padding:0 2px;\">" ++ w ++ "</del>"

def insWrap (w : String) : String :=
  "<ins style=\"background-color:#006400;color:white;padding:0 2px;\">" ++ w ++ "</ins>"

/-- Rendering of one opcode, the source's four branches. -/
def renderOp (a b : List String) (op : Op) : List String :=
  match op.tag with
  | .equal => pySlice a op.i1 op.i2
  | .delete => (pySlice a op.i1 op.i2).map delWrap
  | .insert => (pySlice b op.j1 op.j2).map insWrap
  | .replace => (pySlice a op.i1 op.i2).map delWrap ++ (pySlice b op.j1 op.j2).map insWrap

/-- Embedding of `diff_words_html`. -/
def diff_words_html (original safe : String) : String :=
  let orig_words := pySplit original
  let safe_words := pySplit safe
  String.intercalate " "
    ((getOpcodes orig_words safe_words).flatMap (renderOp orig_words safe_words))

/-- The original-side tokens a diff emits: equal and delete spans and the
original side of replace spans, in opcode order. -/
def origSideTokens (a b : List String) : List String :=
  (getOpcodes a b).flatMap
    (fun op => if op.tag = Tag.insert then [] else pySlice a op.i1 op.i2)

/-- The new-side tokens a diff emits: the tokens printed for equal spans
(taken from the original list, exactly as the source prints them), insert
spans and the new side of replace spans. -/
def newSideTokens (a b : List String) : List String :=
  (getOpcodes a b).flatMap
    (fun op =>
      match op.tag with
      | Tag.equal => pySlice a op.i1 op.i2
      | Tag.delete => []
      | Tag.insert => pySlice b op.j1 op.j2
      | Tag.replace => pySlice b op.j1 op.j2)

/-! ## Matching-block invariants -/

theorem foldl_preserve {α β : Type} (P : β → Prop) (f : β → α → β) :
    ∀ (l : List α) (init : β), P init → (∀ acc x, x ∈ l → P acc → P (f acc x)) →
      P (l.foldl f init) := by
  intro l
  induction l with
  | nil => intro init h0 _; exact h0
  | cons x xs ih =>
      intro init h0 hstep
      rw [List.foldl_cons]
      exact ih (f init x) (hstep init x (by simp) h0)
        (fun acc y hy => hstep acc y (by simp [hy]))

theorem matchLen_le_left : ∀ (xs ys : List String), matchLen xs ys ≤ xs.length := by
  intro xs
  induction xs with
  | nil => intro ys; exact Nat.zero_le _
  | cons x xs ih =>
      intro ys
      cases ys with
      | nil => exact Nat.zero_le _
      | cons y ys =>
          rw [matchLen]
          by_cases h : x = y
          · rw [if_pos h]
            have := ih ys
            simp only [List.length_cons]
            omega
          · rw [if_neg h]
            simp

theorem matchLen_le_right : ∀ (xs ys : List String), matchLen xs ys ≤ ys.length := by
  intro xs
  induction xs with
  | nil => intro ys; exact Nat.zero_le _
  | cons x xs ih =>
      intro ys
      cases ys with
      | nil => exact Nat.zero_le _
      | cons y ys =>
          rw [matchLen]
          by_cases h : x = y
          · rw [if_pos h]
            have := ih ys
            simp only [List.length_cons]
            omega
          · rw [if_neg h]
            simp

theorem matchLen_take : ∀ (xs ys : List String),
    xs.take (matchLen xs ys) = ys.take (matchLen xs ys) := by
  intro xs
  induction xs with
  | nil => intro ys; rfl
  | cons x xs ih =>
      intro ys
      cases ys with
      | nil => rfl
      | cons y ys =>
          rw [matchLen]
          by_cases h : x = y
          · rw [if_pos h, List.take_succ_cons, List.take_succ_cons, ih ys, h]
          · rw [if_neg h]
            simp

theorem matchLen_self : ∀ xs : List String, matchLen xs xs = xs.length := by
  intro xs
  induction xs with
  | nil => rfl
  | cons x xs ih => simp [matchLen, ih]

theorem mem_candPairs (la lb : Nat) (ij : Nat × Nat) (h : ij ∈ candPairs la lb) :
    ij.1 < la ∧ ij.2 < lb := by
  simp only [candPairs, List.mem_flatMap, List.mem_map, List.mem_range] at h
  obtain ⟨i, hi, j, hj, rfl⟩ := h
  exact ⟨hi, hj⟩

theorem bestMatch_bounds (a b : List String) :
    (bestMatch a b).1 + (bestMatch a b).2.2 ≤ a.length ∧
    (bestMatch a b).2.1 + (bestMatch a b).2.2 ≤ b.length := by
  apply foldl_preserve
    (fun best : Nat × Nat × Nat =>
      best.1 + best.2.2 ≤ a.length ∧ best.2.1 + best.2.2 ≤ b.length)
  · simp
  · intro acc ij hij hacc
    obtain ⟨hi, hj⟩ := mem_candPairs _ _ ij hij
    by_cases hlt : acc.2.2 < matchLen (a.drop ij.1) (b.drop ij.2)
    · simp only [if_pos hlt]
      constructor
      · show ij.1 + matchLen (a.drop ij.1) (b.drop ij.2) ≤ a.length
        have h1 := matchLen_le_left (a.drop ij.1) (b.drop ij.2)
        have h2 := List.length_drop ij.1 a
        omega
      · show ij.2 + matchLen (a.drop ij.1) (b.drop ij.2) ≤ b.length
        have h1 := matchLen_le_right (a.drop ij.1) (b.drop ij.2)
        have h2 := List.length_drop ij.2 b
        omega
    · simp only [if_neg hlt]
      exact hacc

theorem bestMatch_matched (a b : List String) (hk : (bestMatch a b).2.2 ≠ 0) :
    (a.drop (bestMatch a b).1).take (bestMatch a b).2.2
      = (b.drop (bestMatch a b).2.1).take (bestMatch a b).2.2 := by
  revert hk
  apply foldl_preserve
    (fun best : Nat × Nat × Nat => best.2.2 ≠ 0 →
      (a.drop best.1).take best.2.2 = (b.drop best.2.1).take best.2.2)
  · intro h; exact absurd rfl h
  · intro acc ij _ hacc
    by_cases hlt : acc.2.2 < matchLen (a.drop ij.1) (b.drop ij.2)
    · simp only [if_pos hlt]
      intro _
      exact matchLen_take (a.drop ij.1) (b.drop ij.2)
    · simp only [if_neg hlt]
      exact hacc

/-- Block lists are chained: each block starts no earlier than the cursor and
the final cursor stays in bounds. -/
def blocksChain : Nat → Nat → List (Nat × Nat × Nat) → Nat → Nat → Prop
  | i, j, [], la, lb => i ≤ la ∧ j ≤ lb
  | i, j, (ai, bj, k) :: rest, la, lb =>
      i ≤ ai ∧ j ≤ bj ∧ blocksChain (ai + k) (bj + k) rest la lb

theorem blocksChain_nil (i j la lb : Nat) :
    blocksChain i j [] la lb ↔ i ≤ la ∧ j ≤ lb := Iff.rfl

theorem blocksChain_cons (i j la lb : Nat) (bl : Nat × Nat × Nat)
    (rest : List (Nat × Nat × Nat)) :
    blocksChain i j (bl :: rest) la lb ↔
      i ≤ bl.1 ∧ j ≤ bl.2.1 ∧ blocksChain (bl.1 + bl.2.2) (bl.2.1 + bl.2.2) rest la lb :=
  Iff.rfl

theorem blocksChain_mono : ∀ (bs : List (Nat × Nat × Nat)) (i j x y la lb : Nat),
    blocksChain i j bs la lb → x ≤ i → y ≤ j → blocksChain x y bs la lb := by
  intro bs
  cases bs with
  | nil =>
      intro i j x y la lb h hx hy
      rw [blocksChain_nil] at h ⊢
      exact ⟨le_trans hx h.1, le_trans hy h.2⟩
  | cons bl rest =>
      intro i j x y la lb h hx hy
      rw [blocksChain_cons] at h ⊢
      exact ⟨le_trans hx h.1, le_trans hy h.2.1, h.2.2⟩

theorem blocksChain_start_le : ∀ (bs : List (Nat × Nat × Nat)) (i j la lb : Nat),
    blocksChain i j bs la lb → i ≤ la ∧ j ≤ lb := by
  intro bs
  induction bs with
  | nil =>
      intro i j la lb h
      exact (blocksChain_nil i j la lb).1 h
  | cons bl rest ih =>
      intro i j la lb h
      rw [blocksChain_cons] at h
      have := ih _ _ la lb h.2.2
      constructor
      · exact le_trans h.1 (le_trans (Nat.le_add_right _ _) this.1)
      · exact le_trans h.2.1 (le_trans (Nat.le_add_right _ _) this.2)

theorem blocksChain_append : ∀ (xs ys : List (Nat × Nat × Nat)) (i j m n la lb : Nat),
    blocksChain i j xs m n → blocksChain m n ys la lb →
    blocksChain i j (xs ++ ys) la lb := by
  intro xs
  induction xs with
  | nil =>
      intro ys i j m n la lb hx hy
      rw [blocksChain_nil] at hx
      rw [List.nil_append]
      exact blocksChain_mono ys m n i j la lb hy hx.1 hx.2
  | cons bl rest ih =>
      intro ys i j m n la lb hx hy
      rw [blocksChain_cons] at hx
      rw [List.cons_append, blocksChain_cons]
      exact ⟨hx.1, hx.2.1, ih ys _ _ m n la lb hx.2.2 hy⟩

theorem blocksChain_shift : ∀ (bs : List (Nat × Nat × Nat)) (i j m n o1 o2 : Nat),
    blocksChain i j bs m n →
    blocksChain (i + o1) (j + o2)
      (bs.map (fun bl => (bl.1 + o1, bl.2.1 + o2, bl.2.2))) (m + o1) (n + o2) := by
  intro bs
  induction bs with
  | nil =>
      intro i j m n o1 o2 h
      rw [blocksChain_nil] at h
      rw [List.map_nil, blocksChain_nil]
      omega
  | cons bl rest ih =>
      intro i j m n o1 o2 h
      rw [blocksChain_cons] at h
      rw [List.map_cons, blocksChain_cons]
      refine ⟨by simp only; omega, by simp only; omega, ?_⟩
      have hrec := ih _ _ m n o1 o2 h.2.2
      have e1 : bl.1 + o1 + bl.2.2 = bl.1 + bl.2.2 + o1 := by omega
      have e2 : bl.2.1 + o2 + bl.2.2 = bl.2.1 + bl.2.2 + o2 := by omega
      show blocksChain (bl.1 + o1 + bl.2.2) (bl.2.1 + o2 + bl.2.2) _ (m + o1) (n + o2)
      rw [e1, e2]
      exact hrec

theorem blocksChain_elem_bounds : ∀ (bs : List (Nat × Nat × Nat)) (i j la lb : Nat),
    blocksChain i j bs la lb →
    ∀ bl ∈ bs, bl.1 + bl.2.2 ≤ la ∧ bl.2.1 + bl.2.2 ≤ lb := by
  intro bs
  induction bs with
  | nil => intro i j la lb _ bl hbl; exact absurd hbl (List.not_mem_nil bl)
  | cons hd rest ih =>
      intro i j la lb h bl hbl
      rw [blocksChain_cons] at h
      rcases List.mem_cons.mp hbl with rfl | hbl2
      · exact blocksChain_start_le rest _ _ la lb h.2.2
      · exact ih _ _ la lb h.2.2 bl hbl2

theorem matchingBlocksF_nil (b : List String) :
    ∀ fuel : Nat, matchingBlocksF fuel [] b = [] := by
  intro fuel
  cases fuel with
  | zero => rfl
  | succ f => rfl

theorem matchingBlocksF_chain : ∀ (fuel : Nat) (a b : List String), a.length < fuel →
    blocksChain 0 0 (matchingBlocksF fuel a b) a.length b.length := by
  intro fuel
  induction fuel with
  | zero => intro a b h; omega
  | succ fuel ih =>
      intro a b ha
      obtain ⟨hba, hbb⟩ := bestMatch_bounds a b
      by_cases hk : (bestMatch a b).2.2 = 0
      · simp only [matchingBlocksF, hk, if_pos]
        rw [blocksChain_nil]
        exact ⟨Nat.zero_le _, Nat.zero_le _⟩
      · simp only [matchingBlocksF, if_neg hk]
        have hlt : (a.take (bestMatch a b).1).length = (bestMatch a b).1 := by
          rw [List.length_take]
          omega
        have hbt : (b.take (bestMatch a b).2.1).length = (bestMatch a b).2.1 := by
          rw [List.length_take]
          omega
        have hleft := ih (a.take (bestMatch a b).1) (b.take (bestMatch a b).2.1)
          (by rw [hlt]; omega)
        rw [hlt, hbt] at hleft
        have hright := ih (a.drop ((bestMatch a b).1 + (bestMatch a b).2.2))
          (b.drop ((bestMatch a b).2.1 + (bestMatch a b).2.2))
          (by rw [List.length_drop]; omega)
        have hshift := blocksChain_shift _ 0 0 _ _
          ((bestMatch a b).1 + (bestMatch a b).2.2)
          ((bestMatch a b).2.1 + (bestMatch a b).2.2) hright
        rw [Nat.zero_add, Nat.zero_add, List.length_drop, List.length_drop] at hshift
        have e1 : a.length - ((bestMatch a b).1 + (bestMatch a b).2.2)
            + ((bestMatch a b).1 + (bestMatch a b).2.2) = a.length := by omega
        have e2 : b.length - ((bestMatch a b).2.1 + (bestMatch a b).2.2)
            + ((bestMatch a b).2.1 + (bestMatch a b).2.2) = b.length := by omega
        rw [e1, e2] at hshift
        apply blocksChain_append _ _ 0 0 (bestMatch a b).1 (bestMatch a b).2.1 _ _ hleft
        rw [blocksChain_cons]
        exact ⟨le_refl _, le_refl _, hshift⟩

/-! ## Slice algebra and the round-trip theorems -/

theorem pySlice_append (l : List String) (i m n : Nat) (him : i ≤ m) (hmn : m ≤ n) :
    pySlice l i m ++ pySlice l m n = pySlice l i n := by
  rw [pySlice, pySlice, pySlice]
  have h1 : l.drop m = (l.drop i).drop (m - i) := by
    rw [List.drop_drop]
    congr 1
    omega
  rw [h1]
  have h2 : n - i = (m - i) + (n - m) := by omega
  rw [h2, List.take_add]

theorem pySlice_take (l : List String) (q x y : Nat) (hy : y ≤ q) :
    pySlice (l.take q) x y = pySlice l x y := by
  rw [pySlice, pySlice, List.drop_take, List.take_take]
  congr 1
  omega

theorem pySlice_drop (l : List String) (o x y : Nat) :
    pySlice (l.drop o) x y = pySlice l (o + x) (o + y) := by
  rw [pySlice, pySlice, List.drop_drop]
  congr 1
  omega

theorem pySlice_full (l : List String) : pySlice l 0 l.length = l := by
  rw [pySlice, List.drop_zero, Nat.sub_zero, List.take_length]

theorem pySlice_zero_width (l : List String) (i : Nat) : pySlice l i i = [] := by
  rw [pySlice, Nat.sub_self, List.take_zero]

theorem pySlice_of_take_eq (a b : List String) (i j k : Nat)
    (h : (a.drop i).take k = (b.drop j).take k) :
    pySlice a i (i + k) = pySlice b j (j + k) := by
  rw [pySlice, pySlice, Nat.add_sub_cancel_left, Nat.add_sub_cancel_left]
  exact h

theorem matchingBlocksF_matched : ∀ (fuel : Nat) (a b : List String), a.length < fuel →
    ∀ bl ∈ matchingBlocksF fuel a b,
      pySlice a bl.1 (bl.1 + bl.2.2) = pySlice b bl.2.1 (bl.2.1 + bl.2.2) := by
  intro fuel
  induction fuel with
  | zero => intro a b h; omega
  | succ fuel ih =>
      intro a b ha bl hbl
      obtain ⟨hba, hbb⟩ := bestMatch_bounds a b
      by_cases hk : (bestMatch a b).2.2 = 0
      · simp only [matchingBlocksF, hk, if_pos] at hbl
        exact absurd hbl (List.not_mem_nil bl)
      · simp only [matchingBlocksF, if_neg hk] at hbl
        rw [List.mem_append] at hbl
        rcases hbl with hbl | hbl
        · -- in the left sub-blocks
          have hlt : (a.take (bestMatch a b).1).length = (bestMatch a b).1 := by
            rw [List.length_take]
            omega
          have hbt : (b.take (bestMatch a b).2.1).length = (bestMatch a b).2.1 := by
            rw [List.length_take]
            omega
          have hch := matchingBlocksF_chain fuel (a.take (bestMatch a b).1)
            (b.take (bestMatch a b).2.1) (by rw [hlt]; omega)
          have hbound := blocksChain_elem_bounds _ 0 0 _ _ hch bl hbl
          rw [hlt, hbt] at hbound
          have hrec := ih (a.take (bestMatch a b).1) (b.take (bestMatch a b).2.1)
            (by rw [hlt]; omega) bl hbl
          rw [pySlice_take a (bestMatch a b).1 bl.1 (bl.1 + bl.2.2) hbound.1,
            pySlice_take b (bestMatch a b).2.1 bl.2.1 (bl.2.1 + bl.2.2) hbound.2] at hrec
          exact hrec
        · rw [List.mem_cons] at hbl
          rcases hbl with rfl | hbl
          · exact pySlice_of_take_eq a b _ _ _ (bestMatch_matched a b hk)
          · rw [List.mem_map] at hbl
            obtain ⟨bl0, hbl0, rfl⟩ := hbl
            have hrec := ih (a.drop ((bestMatch a b).1 + (bestMatch a b).2.2))
              (b.drop ((bestMatch a b).2.1 + (bestMatch a b).2.2))
              (by rw [List.length_drop]; omega) bl0 hbl0
            rw [pySlice_drop, pySlice_drop] at hrec
            show pySlice a (bl0.1 + ((bestMatch a b).1 + (bestMatch a b).2.2))
                ((bl0.1 + ((bestMatch a b).1 + (bestMatch a b).2.2)) + bl0.2.2)
              = pySlice b (bl0.2.1 + ((bestMatch a b).2.1 + (bestMatch a b).2.2))
                ((bl0.2.1 + ((bestMatch a b).2.1 + (bestMatch a b).2.2)) + bl0.2.2)
            have e1 : bl0.1 + ((bestMatch a b).1 + (bestMatch a b).2.2)
                = ((bestMatch a b).1 + (bestMatch a b).2.2) + bl0.1 := by omega
            have e2 : (bl0.1 + ((bestMatch a b).1 + (bestMatch a b).2.2)) + bl0.2.2
                = ((bestMatch a b).1 + (bestMatch a b).2.2) + (bl0.1 + bl0.2.2) := by omega
            have e3 : bl0.2.1 + ((bestMatch a b).2.1 + (bestMatch a b).2.2)
                = ((bestMatch a b).2.1 + (bestMatch a b).2.2) + bl0.2.1 := by omega
            have e4 : (bl0.2.1 + ((bestMatch a b).2.1 + (bestMatch a b).2.2)) + bl0.2.2
                = ((bestMatch a b).2.1 + (bestMatch a b).2.2) + (bl0.2.1 + bl0.2.2) := by omega
            rw [e2, e1, e4, e3]
            exact hrec

theorem gapOps_orig (a : List String) (i i2 j j2 : Nat) (hi : i ≤ i2) :
    (gapOps i i2 j j2).flatMap
      (fun op => if op.tag = Tag.insert then [] else pySlice a op.i1 op.i2)
    = pySlice a i i2 := by
  rw [gapOps]
  by_cases hia : i < i2
  · rw [if_pos hia]
    by_cases hjb : j < j2
    · rw [if_pos hjb, List.flatMap_cons, List.flatMap_nil, List.append_nil]
      show (if Tag.replace = Tag.insert then [] else pySlice a i i2) = pySlice a i i2
      rw [if_neg (by decide)]
    · rw [if_neg hjb, List.flatMap_cons, List.flatMap_nil, List.append_nil]
      show (if Tag.delete = Tag.insert then [] else pySlice a i i2) = pySlice a i i2
      rw [if_neg (by decide)]
  · rw [if_neg hia]
    have hii : i = i2 := by omega
    by_cases hjb : j < j2
    · rw [if_pos hjb, List.flatMap_cons, List.flatMap_nil, List.append_nil]
      show (if Tag.insert = Tag.insert then ([] : List String) else pySlice a i i2)
          = pySlice a i i2
      rw [if_pos rfl, hii, pySlice_zero_width]
    · rw [if_neg hjb, List.flatMap_nil, hii, pySlice_zero_width]

theorem gapOps_new (a b : List String) (i i2 j j2 : Nat) (hj : j ≤ j2) :
    (gapOps i i2 j j2).flatMap
      (fun op =>
        match op.tag with
        | Tag.equal => pySlice a op.i1 op.i2
        | Tag.delete => []
        | Tag.insert => pySlice b op.j1 op.j2
        | Tag.replace => pySlice b op.j1 op.j2)
    = pySlice b j j2 := by
  rw [gapOps]
  by_cases hia : i < i2
  · rw [if_pos hia]
    by_cases hjb : j < j2
    · rw [if_pos hjb, List.flatMap_cons, List.flatMap_nil, List.append_nil]
    · rw [if_neg hjb, List.flatMap_cons, List.flatMap_nil, List.append_nil]
      have hjj : j = j2 := by omega
      show ([] : List String) = pySlice b j j2
      rw [hjj, pySlice_zero_width]
  · rw [if_neg hia]
    by_cases hjb : j < j2
    · rw [if_pos hjb, List.flatMap_cons, List.flatMap_nil, List.append_nil]
    · rw [if_neg hjb, List.flatMap_nil]
      have hjj : j = j2 := by omega
      rw [hjj, pySlice_zero_width]

theorem opcodes_cover_orig (a : List String) :
    ∀ (blocks : List (Nat × Nat × Nat)) (i j lb : Nat),
      blocksChain i j blocks a.length lb →
      (opcodesFromBlocks blocks i j a.length lb).flatMap
        (fun op => if op.tag = Tag.insert then [] else pySlice a op.i1 op.i2)
      = pySlice a i a.length := by
  intro blocks
  induction blocks with
  | nil =>
      intro i j lb hch
      rw [blocksChain_nil] at hch
      show (gapOps i a.length j lb).flatMap _ = _
      exact gapOps_orig a i a.length j lb hch.1
  | cons bl rest ih =>
      intro i j lb hch
      rw [blocksChain_cons] at hch
      obtain ⟨h1, h2, hrest⟩ := hch
      obtain ⟨hend, _⟩ := blocksChain_start_le rest _ _ a.length lb hrest
      obtain ⟨ai, bj, k⟩ := bl
      show ((gapOps i ai j bj
          ++ ⟨Tag.equal, ai, ai + k, bj, bj + k⟩
            :: opcodesFromBlocks rest (ai + k) (bj + k) a.length lb).flatMap _) = _
      rw [List.flatMap_append, List.flatMap_cons]
      rw [gapOps_orig a i ai j bj h1, ih (ai + k) (bj + k) lb hrest]
      show pySlice a i ai ++ ((if Tag.equal = Tag.insert then [] else pySlice a ai (ai + k))
          ++ pySlice a (ai + k) a.length) = pySlice a i a.length
      rw [if_neg (by decide)]
      rw [pySlice_append a ai (ai + k) a.length (Nat.le_add_right _ _) hend,
        pySlice_append a i ai a.length h1 (le_trans (Nat.le_add_right _ _) hend)]

theorem opcodes_cover_new (a b : List String) :
    ∀ (blocks : List (Nat × Nat × Nat)) (i j : Nat),
      blocksChain i j blocks a.length b.length →
      (∀ bl ∈ blocks, pySlice a bl.1 (bl.1 + bl.2.2) = pySlice b bl.2.1 (bl.2.1 + bl.2.2)) →
      (opcodesFromBlocks blocks i j a.length b.length).flatMap
        (fun op =>
          match op.tag with
          | Tag.equal => pySlice a op.i1 op.i2
          | Tag.delete => []
          | Tag.insert => pySlice b op.j1 op.j2
          | Tag.replace => pySlice b op.j1 op.j2)
      = pySlice b j b.length := by
  intro blocks
  induction blocks with
  | nil =>
      intro i j hch _
      rw [blocksChain_nil] at hch
      show (gapOps i a.length j b.length).flatMap _ = _
      exact gapOps_new a b i a.length j b.length hch.2
  | cons bl rest ih =>
      intro i j hch hmat
      rw [blocksChain_cons] at hch
      obtain ⟨h1, h2, hrest⟩ := hch
      obtain ⟨_, hendb⟩ := blocksChain_start_le rest _ _ a.length b.length hrest
      have hblmat := hmat bl (List.mem_cons_self bl rest)
      obtain ⟨ai, bj, k⟩ := bl
      show ((gapOps i ai j bj
          ++ ⟨Tag.equal, ai, ai + k, bj, bj + k⟩
            :: opcodesFromBlocks rest (ai + k) (bj + k) a.length b.length).flatMap _) = _
      rw [List.flatMap_append, List.flatMap_cons]
      rw [gapOps_new a b i ai j bj h2,
        ih (ai + k) (bj + k) hrest (fun x hx => hmat x (List.mem_cons_of_mem _ hx))]
      show pySlice b j bj ++ (pySlice a ai (ai + k) ++ pySlice b (bj + k) b.length)
          = pySlice b j b.length
      rw [hblmat]
      rw [pySlice_append b bj (bj + k) b.length (Nat.le_add_right _ _) hendb,
        pySlice_append b j bj b.length h2 (le_trans (Nat.le_add_right _ _) hendb)]

/-- Claim C4: the diff round-trips: the original-side tokens (equal, delete
and replace-original spans, in opcode order) joined with single spaces give
back the whitespace-normalised original, and the new-side tokens (equal,
insert and replace-new spans) give back the whitespace-normalised rewritten
text. -/
theorem c4_diff_round_trip (original safe : String) :
    String.intercalate " " (origSideTokens (pySplit original) (pySplit safe))
      = String.intercalate " " (pySplit original) ∧
    String.intercalate " " (newSideTokens (pySplit original) (pySplit safe))
      = String.intercalate " " (pySplit safe) := by
  constructor
  · congr 1
    rw [origSideTokens, getOpcodes]
    rw [opcodes_cover_orig (pySplit original) (matchingBlocks (pySplit original) (pySplit safe))
      0 0 (pySplit safe).length (matchingBlocksF_chain _ _ _ (by omega))]
    exact pySlice_full _
  · congr 1
    rw [newSideTokens, getOpcodes]
    rw [opcodes_cover_new (pySplit original) (pySplit safe)
      (matchingBlocks (pySplit original) (pySplit safe)) 0 0
      (matchingBlocksF_chain _ _ _ (by omega))
      (matchingBlocksF_matched _ _ _ (by omega))]
    exact pySlice_full _

theorem candPairs_pos_head (la lb : Nat) (ha : 0 < la) (hb : 0 < lb) :
    ∃ tail, candPairs la lb = (0, 0) :: tail := by
  obtain ⟨la2, rfl⟩ : ∃ x, la = x + 1 := ⟨la - 1, by omega⟩
  obtain ⟨lb2, rfl⟩ : ∃ x, lb = x + 1 := ⟨lb - 1, by omega⟩
  rw [candPairs, List.range_succ_eq_map, List.flatMap_cons, List.range_succ_eq_map,
    List.map_cons, List.cons_append]
  exact ⟨_, rfl⟩

theorem bestMatch_self (a : List String) : bestMatch a a = (0, 0, a.length) := by
  by_cases ha : a.length = 0
  · have hnil : a = [] := List.length_eq_zero.mp ha
    subst hnil
    rfl
  · obtain ⟨tail, htail⟩ := candPairs_pos_head a.length a.length (by omega) (by omega)
    rw [bestMatch, htail, List.foldl_cons]
    have hstep : (if ((0, 0, 0) : Nat × Nat × Nat).2.2
          < matchLen (a.drop ((0, 0) : Nat × Nat).1) (a.drop ((0, 0) : Nat × Nat).2)
        then (((0, 0) : Nat × Nat).1, ((0, 0) : Nat × Nat).2,
          matchLen (a.drop ((0, 0) : Nat × Nat).1) (a.drop ((0, 0) : Nat × Nat).2))
        else ((0, 0, 0) : Nat × Nat × Nat)) = ((0, 0, a.length) : Nat × Nat × Nat) := by
      show (if (0 : Nat) < matchLen (a.drop 0) (a.drop 0)
          then ((0 : Nat), (0 : Nat), matchLen (a.drop 0) (a.drop 0))
          else ((0, 0, 0) : Nat × Nat × Nat)) = (0, 0, a.length)
      rw [List.drop_zero, matchLen_self, if_pos (by omega)]
    rw [hstep]
    apply foldl_preserve (fun best : Nat × Nat × Nat => best = (0, 0, a.length))
    · rfl
    · intro acc ij _ hacc
      subst hacc
      have h1 := matchLen_le_left (a.drop ij.1) (a.drop ij.2)
      have h2 := List.length_drop ij.1 a
      have hnlt : ¬ (((0, 0, a.length) : Nat × Nat × Nat).2.2
          < matchLen (a.drop ij.1) (a.drop ij.2)) := by
        show ¬ (a.length < matchLen (a.drop ij.1) (a.drop ij.2))
        omega
      simp only [if_neg hnlt]

theorem getOpcodes_self (a : List String) :
    getOpcodes a a
      = if a.length = 0 then []
        else [⟨Tag.equal, 0, a.length, 0, a.length⟩] := by
  by_cases ha : a.length = 0
  · rw [if_pos ha]
    have hnil : a = [] := List.length_eq_zero.mp ha
    subst hnil
    rfl
  · rw [if_neg ha]
    have hmb : matchingBlocks a a = [(0, 0, a.length)] := by
      rw [matchingBlocks]
      simp only [matchingBlocksF, bestMatch_self]
      rw [if_neg (by simpa using ha)]
      show matchingBlocksF a.length (a.take 0) (a.take 0)
          ++ (0, 0, a.length) :: (matchingBlocksF a.length (a.drop (0 + a.length))
            (a.drop (0 + a.length))).map _ = _
      rw [List.take_zero, matchingBlocksF_nil, Nat.zero_add, List.drop_length,
        matchingBlocksF_nil, List.map_nil, List.nil_append]
    rw [getOpcodes, hmb]
    show gapOps 0 0 0 0 ++ ⟨Tag.equal, 0, 0 + a.length, 0, 0 + a.length⟩
        :: opcodesFromBlocks [] (0 + a.length) (0 + a.length) a.length a.length = _
    rw [show gapOps 0 0 0 0 = [] from rfl]
    show [] ++ ⟨Tag.equal, 0, 0 + a.length, 0, 0 + a.length⟩
        :: gapOps (0 + a.length) a.length (0 + a.length) a.length = _
    rw [Nat.zero_add]
    rw [show gapOps a.length a.length a.length a.length = [] by
      rw [gapOps, if_neg (by omega), if_neg (by omega)]]
    rw [List.nil_append]

/-- Claim C5 (spec-modelled matcher): diffing any text against itself yields
only equal spans, and the rendered diff is exactly the tokens joined by
single spaces, with no removed or added markers. -/
theorem c5_self_diff_equal (x : String) :
    ((getOpcodes (pySplit x) (pySplit x)).all (fun op => op.tag == Tag.equal)) = true ∧
    diff_words_html x x = String.intercalate " " (pySplit x) := by
  have hgo := getOpcodes_self (pySplit x)
  constructor
  · rw [hgo]
    by_cases h : (pySplit x).length = 0
    · rw [if_pos h]
      rfl
    · rw [if_neg h]
      rfl
  · show String.intercalate " "
        ((getOpcodes (pySplit x) (pySplit x)).flatMap (renderOp (pySplit x) (pySplit x)))
      = String.intercalate " " (pySplit x)
    rw [hgo]
    by_cases h : (pySplit x).length = 0
    · rw [if_pos h]
      have hnil : pySplit x = [] := List.length_eq_zero.mp h
      rw [hnil]
      rfl
    · rw [if_neg h]
      congr 1
      rw [List.flatMap_cons, List.flatMap_nil, List.append_nil]
      show pySlice (pySplit x) 0 (pySplit x).length = pySplit x
      exact pySlice_full _
